import Mathlib

set_option linter.unusedSectionVars false

/-!
Verification of the ferrisgraph library: a directed, weighted multigraph
stored as a node registry (`BTreeSet<Rc<N>>`) plus an edge table
(`BTreeMap<Rc<N>, BTreeSet<(Rc<N>, Option<E>)>>`), together with BFS, DFS,
cycle detection and Dijkstra shortest paths.

The embedding models the ordered containers as strictly sorted lists (the
canonical form a B-tree presents through its iterators), `Rc` sharing by
plain values (all orderings and equalities in the source dereference to the
value), and hash maps as association lists with overwrite-on-insert.  Loops
of the graph algorithms take an explicit fuel argument; sufficiency of a
concrete fuel bound is proved where a claim needs termination.
-/

namespace FG

variable {N E : Type} [LinearOrder N] [LinearOrder E]

/-- Rust's derived `Ord` on `Option<E>`: `None` sorts before `Some`,
and `Some` values compare by the inner value. -/
def optLt (a b : Option E) : Bool :=
  match a, b with
  | none, none => false
  | none, some _ => true
  | some _, none => false
  | some x, some y => decide (x < y)

/-- Rust's derived lexicographic `Ord` on `(Rc<N>, Option<E>)` pairs,
dereferencing `Rc` to the node value. -/
def edgeLt (a b : N × Option E) : Bool :=
  decide (a.1 < b.1) || (decide (a.1 = b.1) && optLt a.2 b.2)

/-- `BTreeSet::insert`, presented on the sorted element list of the set:
place the element at its position in the order `lt`, or keep the list
unchanged when the element is already present. -/
def oinsert {α : Type} [DecidableEq α] (lt : α → α → Bool) (x : α) : List α → List α
  | [] => [x]
  | y :: ys =>
    if lt x y then x :: y :: ys
    else if x = y then y :: ys
    else y :: oinsert lt x ys

/-- `BTreeSet::remove`, presented on the element list: drop the (unique)
occurrence of the element. -/
def oremove {α : Type} [DecidableEq α] (x : α) : List α → List α
  | [] => []
  | y :: ys => if x = y then ys else y :: oremove x ys

/-- The strict order of `N` as a Bool comparison. -/
def nltb (a b : N) : Bool := decide (a < b)

/-- `BTreeSet<N>::insert` on a node set. -/
def nsetInsert (x : N) (l : List N) : List N := oinsert nltb x l

/-- `BTreeSet<N>::remove` on a node set. -/
def nsetRemove (x : N) (l : List N) : List N := oremove x l

/-- `BTreeSet<(Rc<N>, Option<E>)>::insert` for an outgoing-edge set. -/
def esetInsert (x : N × Option E) (l : List (N × Option E)) : List (N × Option E) :=
  oinsert edgeLt x l

/-- `BTreeSet<(Rc<N>, Option<E>)>::remove` for an outgoing-edge set. -/
def esetRemove (x : N × Option E) (l : List (N × Option E)) : List (N × Option E) :=
  oremove x l

/-- `BTreeMap::get` on the edge table. -/
def emapGet (k : N) : List (N × List (N × Option E)) → Option (List (N × Option E))
  | [] => none
  | p :: rest => if k = p.1 then some p.2 else emapGet k rest

/-- `BTreeMap::insert` on the edge table (replaces the value if the key is
present, otherwise inserts at the sorted position). -/
def emapInsert (k : N) (v : List (N × Option E)) :
    List (N × List (N × Option E)) → List (N × List (N × Option E))
  | [] => [(k, v)]
  | p :: rest =>
    if k < p.1 then (k, v) :: p :: rest
    else if k = p.1 then (k, v) :: rest
    else p :: emapInsert k v rest

/-- In-place mutation through `BTreeMap::get_mut`: apply `f` to the value
stored at key `k`. -/
def emapModify (k : N) (f : List (N × Option E) → List (N × Option E)) :
    List (N × List (N × Option E)) → List (N × List (N × Option E))
  | [] => []
  | p :: rest => if k = p.1 then (p.1, f p.2) :: rest else p :: emapModify k f rest

/-- `BTreeMap::remove` on the edge table. -/
def emapRemove (k : N) : List (N × List (N × Option E)) → List (N × List (N × Option E))
  | [] => []
  | p :: rest => if k = p.1 then rest else p :: emapRemove k rest

/-- `Graph<N, E>`: the node registry plus the edge table
(`graph.rs`, lines 16-24). -/
structure Graph (N E : Type) where
  nodes : List N
  edges : List (N × List (N × Option E))
deriving DecidableEq

/-- `GraphError<N>`: the single error kind of the library. -/
inductive GraphError (N : Type) where
  | NodeNotFound : N → GraphError N
deriving DecidableEq

instance {ε α : Type} [DecidableEq ε] [DecidableEq α] : DecidableEq (Except ε α) :=
  fun a b =>
    match a, b with
    | Except.error e1, Except.error e2 =>
      if h : e1 = e2 then isTrue (by rw [h])
      else isFalse (by intro hc; injection hc with h2; exact h h2)
    | Except.error e1, Except.ok v2 => isFalse (fun hc => Except.noConfusion hc)
    | Except.ok v1, Except.error e2 => isFalse (fun hc => Except.noConfusion hc)
    | Except.ok v1, Except.ok v2 =>
      if h : v1 = v2 then isTrue (by rw [h])
      else isFalse (by intro hc; injection hc with h2; exact h h2)

/-- `Graph::new` (`graph.rs` line 48). -/
def Graph.new : Graph N E := ⟨[], []⟩

/-- `Graph::is_node` (`graph.rs` line 67). -/
def Graph.is_node (g : Graph N E) (node : N) : Bool :=
  decide (node ∈ g.nodes)

/-- `Graph::add_node` (`graph.rs` lines 83-93).  The returned pair is the
Rust boolean result together with the mutated receiver. -/
def Graph.add_node (g : Graph N E) (node : N) : Bool × Graph N E :=
  if g.is_node node then (false, g)
  else (true, ⟨nsetInsert node g.nodes, emapInsert node [] g.edges⟩)

/-- `Graph::is_edge` (`graph.rs` lines 106-119). -/
def Graph.is_edge (g : Graph N E) (src dst : N) (weight : Option E) : Bool :=
  if !g.is_node dst then false
  else
    match emapGet src g.edges with
    | none => false
    | some s => s.any (fun p => decide (p.1 = dst) && decide (weight = p.2))

/-- `Graph::add_edge` (`graph.rs` lines 133-151). -/
def Graph.add_edge (g : Graph N E) (src dst : N) (weight : Option E) : Bool × Graph N E :=
  if g.is_edge src dst weight then (false, g)
  else
    match emapGet src g.edges with
    | none => (false, g)
    | some s =>
      if g.is_node dst then
        (true, ⟨g.nodes, emapInsert src (esetInsert (dst, weight) s) g.edges⟩)
      else (false, g)

/-- `Graph::remove_node` (`graph.rs` lines 173-190): drop the node's
outgoing set, strip it as a destination from every remaining set, then
drop it from the registry. -/
def Graph.remove_node (g : Graph N E) (node : N) : Bool × Graph N E :=
  if !g.is_node node then (false, g)
  else
    (true,
      ⟨nsetRemove node g.nodes,
       (emapRemove node g.edges).map
         (fun p => (p.1, p.2.filter (fun q => decide (q.1 ≠ node))))⟩)

/-- `Graph::remove_edge` (`graph.rs` lines 211-228). -/
def Graph.remove_edge (g : Graph N E) (src dst : N) (weight : Option E) : Bool × Graph N E :=
  if !g.is_edge src dst weight then (false, g)
  else (true, ⟨g.nodes, emapModify src (esetRemove (dst, weight)) g.edges⟩)

/-- `Graph::is_connected` (`graph.rs` lines 245-252). -/
def Graph.is_connected (g : Graph N E) (src dst : N) : Bool :=
  match emapGet src g.edges with
  | none => false
  | some s => s.any (fun p => decide (p.1 = dst))

/-- `Graph::add_undirected_edge` (`graph.rs` lines 300-310).  The `&&` of
the source short-circuits: the second insertion only runs when the first
succeeded. -/
def Graph.add_undirected_edge (g : Graph N E) (src dst : N) (weight : Option E) :
    Bool × Graph N E :=
  if src = dst then (false, g)
  else if g.is_edge src dst weight || g.is_edge dst src weight then (false, g)
  else
    let r1 := g.add_edge src dst weight
    if r1.1 then r1.2.add_edge dst src weight
    else (false, r1.2)

/-- `Graph::num_nodes` (`queries.rs` line 60). -/
def Graph.num_nodes (g : Graph N E) : Nat := g.nodes.length

/-- `Graph::is_empty` (`queries.rs` line 43). -/
def Graph.is_empty (g : Graph N E) : Bool := g.nodes.isEmpty

/-- `Graph::num_edges` (`queries.rs` lines 166-168): the sum of the sizes
of all outgoing-edge sets. -/
def Graph.num_edges (g : Graph N E) : Nat :=
  (g.edges.map (fun p => p.2.length)).sum

/-- `Graph::out_degree` (`queries.rs` lines 190-197). -/
def Graph.out_degree (g : Graph N E) (node : N) : Nat :=
  match emapGet node g.edges with
  | none => 0
  | some s => s.length

/-- `Graph::in_degree` (`queries.rs` lines 219-229). -/
def Graph.in_degree (g : Graph N E) (node : N) : Nat :=
  if !g.is_node node then 0
  else ((g.edges.map (fun p => p.2.filter (fun q => decide (q.1 = node)))).map
    List.length).sum

/-- `Graph::degree` (`queries.rs` lines 254-256). -/
def Graph.degree (g : Graph N E) (node : N) : Nat :=
  g.in_degree node + g.out_degree node

/-- `Graph::edges` query (`queries.rs` lines 93-111): `NodeNotFound` when
the node has no edge-table entry, `Ok(None)` when the entry is empty,
otherwise the list of `(destination, weight)` pairs in set order.  Named
`edgesQ` because the Lean structure field `edges` occupies the source
name. -/
def Graph.edgesQ (g : Graph N E) (node : N) :
    Except (GraphError N) (Option (List (N × Option E))) :=
  match emapGet node g.edges with
  | none => Except.error (GraphError.NodeNotFound node)
  | some s => if s.isEmpty then Except.ok none else Except.ok (some s)

/-- `Graph::connections` (`queries.rs` lines 136-151). -/
def Graph.connections (g : Graph N E) (node : N) :
    Except (GraphError N) (Option (List N)) :=
  match emapGet node g.edges with
  | none => Except.error (GraphError.NodeNotFound node)
  | some s => if s.isEmpty then Except.ok none else Except.ok (some (s.map Prod.fst))

section Algos

variable {V : Type}

/-- `HashMap::get` on an association-list model. -/
def hmGet [DecidableEq N] (k : N) : List (N × V) → Option V
  | [] => none
  | p :: rest => if k = p.1 then some p.2 else hmGet k rest

/-- `HashMap::insert` on an association-list model: overwrite the value if
the key is present, otherwise append the new binding.  Iteration order of
the hash map is never observed by the algorithms, so any key order is a
faithful model; keeping first-insertion order keeps the list canonical. -/
def hmInsert [DecidableEq N] (k : N) (v : V) (l : List (N × V)) : List (N × V) :=
  if (hmGet k l).isSome then l.map (fun p => if k = p.1 then (k, v) else p)
  else l ++ [(k, v)]

/-- The body of the BFS `for` loop (`algos.rs` lines 66-71): thread the
predecessor map and the queue through one outgoing-edge set.  `q.push_back`
appends; `pred.insert` runs only when the destination is undiscovered. -/
def bfsScan (curr : N) (s : List (N × Option E)) (pred : List (N × N)) (q : List N) :
    List (N × N) × List N :=
  s.foldl
    (fun acc p =>
      if (hmGet p.1 acc.1).isNone then (hmInsert p.1 curr acc.1, acc.2 ++ [p.1])
      else acc)
    (pred, q)

/-- The BFS `loop` (`algos.rs` lines 55-72): pop the queue front, look up
the outgoing set (an absent entry is `NodeNotFound`), and scan it.  `none`
means the fuel ran out before the queue emptied. -/
def bfsLoop (g : Graph N E) :
    Nat → List N → List (N × N) → Option (Except (GraphError N) (List (N × N)))
  | 0, _, _ => none
  | fuel + 1, q, pred =>
    match q with
    | [] => some (Except.ok pred)
    | curr :: rest =>
      match emapGet curr g.edges with
      | none => some (Except.error (GraphError.NodeNotFound curr))
      | some s =>
        let st := bfsScan curr s pred rest
        bfsLoop g fuel st.2 st.1

/-- `Graph::bfs` (`algos.rs` lines 42-75): reject an unregistered source,
then run the queue loop started with the source mapped to itself. -/
def Graph.bfs (g : Graph N E) (src : N) (fuel : Nat) :
    Option (Except (GraphError N) (List (N × N))) :=
  if g.is_node src then bfsLoop g fuel [src] [(src, src)]
  else some (Except.error (GraphError.NodeNotFound src))

/-- The body of the DFS `for` loop (`algos.rs` lines 124-128): push every
destination not yet visited.  `Vec::push`/`Vec::pop` work at the same end,
modelled by consing onto the list head. -/
def dfsScan (s : List (N × Option E)) (visited : List N) (stack : List N) : List N :=
  s.foldl (fun st p => if decide (p.1 ∈ visited) then st else p.1 :: st) stack

/-- The DFS `loop` (`algos.rs` lines 111-129): pop the stack top, look up
the outgoing set (an absent entry is `NodeNotFound`), mark the node
visited, push unvisited destinations. -/
def dfsLoop (g : Graph N E) :
    Nat → List N → List N → Option (Except (GraphError N) (List N))
  | 0, _, _ => none
  | fuel + 1, stack, visited =>
    match stack with
    | [] => some (Except.ok visited)
    | curr :: rest =>
      match emapGet curr g.edges with
      | none => some (Except.error (GraphError.NodeNotFound curr))
      | some s =>
        let visited1 := nsetInsert curr visited
        dfsLoop g fuel (dfsScan s visited1 rest) visited1

/-- `Graph::dfs` (`algos.rs` lines 105-132).  There is no pre-check on the
source: an unregistered source fails at its edge-table lookup in the first
iteration. -/
def Graph.dfs (g : Graph N E) (src : N) (fuel : Nat) :
    Option (Except (GraphError N) (List N)) :=
  dfsLoop g fuel [src] []

/-- The `for` loop of `explore_for_cycle` (`algos.rs` lines 189-193),
parameterised by the recursive explorer `f`: explore each destination,
short-circuiting on the first cycle found. -/
def exploreChildrenF (f : N → List N → List N → Option (Bool × List N × List N)) :
    List (N × Option E) → List N → List N → Option (Bool × List N × List N)
  | [], visited, stack => some (false, visited, stack)
  | p :: rest, visited, stack =>
    match f p.1 visited stack with
    | none => none
    | some (true, v1, s1) => some (true, v1, s1)
    | some (false, v1, s1) => exploreChildrenF f rest v1 s1

/-- `Graph::explore_for_cycle` (`algos.rs` lines 168-198).  The result
carries the updated `visited` and `stack` sets (`&mut` in the source);
`none` stands for fuel exhaustion or for the `expect` panic on a node with
no edge-table entry. -/
def exploreForCycle (g : Graph N E) :
    Nat → N → List N → List N → Option (Bool × List N × List N)
  | 0, _, _, _ => none
  | fuel + 1, node, visited, stack =>
    if decide (node ∈ stack) then some (true, visited, stack)
    else if decide (node ∈ visited) then some (false, visited, stack)
    else
      match emapGet node g.edges with
      | none => none
      | some s =>
        match exploreChildrenF (exploreForCycle g fuel) s (nsetInsert node visited) (nsetInsert node stack) with
        | none => none
        | some (true, v1, s1) => some (true, v1, s1)
        | some (false, v1, s1) => some (false, v1, nsetRemove node s1)

/-- The children loop of `explore_for_cycle` at a fixed fuel level. -/
def exploreChildren (g : Graph N E) (fuel : Nat) :
    List (N × Option E) → List N → List N → Option (Bool × List N × List N) :=
  exploreChildrenF (exploreForCycle g fuel)

/-- The `for` loop of `has_cycle` (`algos.rs` lines 157-163): explore every
node not yet visited, short-circuiting on the first cycle. -/
def hasCycleLoop (g : Graph N E) :
    Nat → List N → List N → List N → Option Bool
  | _, [], _, _ => some false
  | fuel, n :: rest, visited, stack =>
    if decide (n ∈ visited) then hasCycleLoop g fuel rest visited stack
    else
      match exploreForCycle g fuel n visited stack with
      | none => none
      | some (true, _, _) => some true
      | some (false, v1, s1) => hasCycleLoop g fuel rest v1 s1

/-- `Graph::has_cycle` (`algos.rs` lines 153-166). -/
def Graph.has_cycle (g : Graph N E) (fuel : Nat) : Option Bool :=
  hasCycleLoop g fuel g.nodes [] []

/-- Heap order on `(Reverse(dist), node)` entries of the Dijkstra priority
queue: `a` sorts strictly below `b` when `b` pops first, i.e. when `b` has
the smaller distance, or equal distance and the larger node. -/
def heapLt (a b : E × N) : Bool :=
  decide (b.1 < a.1) || (decide (a.1 = b.1) && decide (a.2 < b.2))

/-- The greatest entry of the heap: the one `BinaryHeap::pop` returns. -/
def heapMax : List (E × N) → Option (E × N)
  | [] => none
  | x :: rest =>
    match heapMax rest with
    | none => some x
    | some m => some (if heapLt x m then m else x)

/-- `BinaryHeap::pop`: return the greatest entry and the remaining
multiset of entries. -/
def pqPop (pq : List (E × N)) : Option ((E × N) × List (E × N)) :=
  match heapMax pq with
  | none => none
  | some m => some (m, oremove m pq)

/-- The body of the Dijkstra relaxation loop (`algos.rs` lines 261-274):
for each outgoing edge take its weight (or `default_weight` when absent),
and when the new distance strictly improves, update `dist` and `pred` and
push the destination. -/
def djikstraScan [Add E] (u : N) (curr_dist default_weight : E)
    (s : List (N × Option E)) (pq : List (E × N)) (dist : List (N × E))
    (pred : List (N × Option N)) :
    List (E × N) × List (N × E) × List (N × Option N) :=
  s.foldl
    (fun acc p =>
      let weight := match p.2 with | some x => x | none => default_weight
      let new_dist := weight + curr_dist
      let better :=
        match hmGet p.1 acc.2.1 with
        | none => true
        | some dn => decide (new_dist < dn)
      if better then
        ((new_dist, p.1) :: acc.1,
         hmInsert p.1 new_dist acc.2.1,
         hmInsert p.1 (some u) acc.2.2)
      else acc)
    (pq, dist, pred)

/-- The Dijkstra `while let` loop (`algos.rs` lines 251-275): pop the
minimum-distance entry, skip it when a strictly better distance is already
recorded (lazy deletion), otherwise relax the node's outgoing edges.  An
absent edge-table entry is `NodeNotFound`; `none` is fuel exhaustion. -/
def djikstraLoop [Add E] (g : Graph N E) (default_weight : E) :
    Nat → List (E × N) → List (N × E) → List (N × Option N) →
    Option (Except (GraphError N) (List (N × E) × List (N × Option N)))
  | 0, _, _, _ => none
  | fuel + 1, pq, dist, pred =>
    match pqPop pq with
    | none => some (Except.ok (dist, pred))
    | some ((curr_dist, u), pq1) =>
      let skip :=
        match hmGet u dist with
        | none => false
        | some du => decide (du < curr_dist)
      if skip then djikstraLoop g default_weight fuel pq1 dist pred
      else
        match emapGet u g.edges with
        | none => some (Except.error (GraphError.NodeNotFound u))
        | some s =>
          let st := djikstraScan u curr_dist default_weight s pq1 dist pred
          djikstraLoop g default_weight fuel st.1 st.2.1 st.2.2

/-- `Graph::djikstra` (`algos.rs` lines 237-278): seed the maps with the
source at distance `zero` and predecessor `None`, then run the loop.  The
source's registration is never pre-checked; an unregistered source fails
at its edge-table lookup. -/
def Graph.djikstra [Add E] (g : Graph N E) (src : N) (default_weight zero : E)
    (fuel : Nat) :
    Option (Except (GraphError N) (List (N × E) × List (N × Option N))) :=
  djikstraLoop g default_weight fuel [(zero, src)] [(src, zero)] [(src, none)]

end Algos

/-! ## Lemmas about the ordered-set model -/

section OrderedSet

variable {α : Type} [DecidableEq α]

theorem bool_false_of_not {b : Bool} (h : ¬b = true) : b = false := by
  cases b
  · rfl
  · exact absurd rfl h

theorem mem_oinsert (lt : α → α → Bool) (x a : α) (l : List α) :
    a ∈ oinsert lt x l ↔ a = x ∨ a ∈ l := by
  induction l with
  | nil => simp [oinsert]
  | cons y ys ih =>
    simp only [oinsert]
    by_cases h1 : lt x y = true
    · rw [if_pos h1]
      simp only [List.mem_cons]
    · rw [if_neg h1]
      by_cases h2 : x = y
      · subst h2
        rw [if_pos rfl]
        simp only [List.mem_cons]
        tauto
      · rw [if_neg h2]
        simp only [List.mem_cons, ih]
        tauto

theorem pairwise_oinsert (lt : α → α → Bool)
    (htrans : ∀ a b c, lt a b = true → lt b c = true → lt a c = true)
    (htotal : ∀ a b, lt a b = false → a ≠ b → lt b a = true)
    (x : α) (l : List α) (h : l.Pairwise (fun a b => lt a b = true)) :
    (oinsert lt x l).Pairwise (fun a b => lt a b = true) := by
  induction l with
  | nil => simp [oinsert]
  | cons y ys ih =>
    rw [List.pairwise_cons] at h
    obtain ⟨hy, hys⟩ := h
    simp only [oinsert]
    by_cases h1 : lt x y = true
    · rw [if_pos h1]
      refine List.Pairwise.cons ?_ (List.Pairwise.cons hy hys)
      intro b hb
      rcases List.mem_cons.1 hb with rfl | hb
      · exact h1
      · exact htrans _ _ _ h1 (hy b hb)
    · rw [if_neg h1]
      by_cases h2 : x = y
      · rw [if_pos h2]
        exact List.Pairwise.cons hy hys
      · rw [if_neg h2]
        refine List.Pairwise.cons ?_ (ih hys)
        intro b hb
        rcases (mem_oinsert lt x b ys).1 hb with rfl | hb
        · exact htotal _ _ (bool_false_of_not h1) h2
        · exact hy b hb

theorem oinsert_of_mem (lt : α → α → Bool)
    (hirr : ∀ a, lt a a = false)
    (hasym : ∀ a b, lt a b = true → lt b a = false)
    (x : α) {l : List α} (hp : l.Pairwise (fun a b => lt a b = true))
    (hx : x ∈ l) : oinsert lt x l = l := by
  induction l with
  | nil => cases hx
  | cons y ys ih =>
    rw [List.pairwise_cons] at hp
    rcases List.mem_cons.1 hx with rfl | hmem
    · simp [oinsert, hirr x]
    · have hyx : lt y x = true := hp.1 x hmem
      have h1 : lt x y = false := hasym _ _ hyx
      have hne : x ≠ y := by
        intro he
        subst he
        rw [hirr] at hyx
        cases hyx
      simp only [oinsert]
      rw [if_neg (by simp [h1]), if_neg hne, ih hp.2 hmem]

theorem oremove_sublist (x : α) : ∀ l : List α, List.Sublist (oremove x l) l
  | [] => List.Sublist.refl _
  | y :: ys => by
    simp only [oremove]
    by_cases h : x = y
    · rw [if_pos h]
      exact (List.sublist_cons_self y ys)
    · rw [if_neg h]
      exact List.Sublist.cons₂ y (oremove_sublist x ys)

theorem mem_of_mem_oremove {x a : α} {l : List α} (h : a ∈ oremove x l) : a ∈ l :=
  (oremove_sublist x l).mem h

theorem mem_oremove_of_ne {x a : α} (hne : a ≠ x) :
    ∀ {l : List α}, a ∈ l → a ∈ oremove x l := by
  intro l
  induction l with
  | nil => intro h; cases h
  | cons y ys ih =>
    intro h
    simp only [oremove]
    by_cases hxy : x = y
    · rw [if_pos hxy]
      rcases List.mem_cons.1 h with rfl | h2
      · exact absurd hxy.symm hne
      · exact h2
    · rw [if_neg hxy]
      rcases List.mem_cons.1 h with rfl | h2
      · exact List.mem_cons_self _ _
      · exact List.mem_cons_of_mem _ (ih h2)

theorem not_mem_oremove {x : α} : ∀ {l : List α}, l.Nodup → x ∉ oremove x l := by
  intro l
  induction l with
  | nil => intro _ h; cases h
  | cons y ys ih =>
    intro hnd
    rw [List.nodup_cons] at hnd
    simp only [oremove]
    by_cases hxy : x = y
    · rw [if_pos hxy]
      subst hxy
      exact hnd.1
    · rw [if_neg hxy]
      intro hmem
      rcases List.mem_cons.1 hmem with rfl | h2
      · exact hxy rfl
      · exact ih hnd.2 h2

theorem oremove_of_not_mem {x : α} : ∀ {l : List α}, x ∉ l → oremove x l = l := by
  intro l
  induction l with
  | nil => intro _; rfl
  | cons y ys ih =>
    intro h
    simp only [oremove]
    rw [if_neg (fun he => h (by rw [he]; exact List.mem_cons_self _ _)),
      ih (fun hm => h (List.mem_cons_of_mem _ hm))]

theorem length_oremove {x : α} : ∀ {l : List α}, x ∈ l →
    (oremove x l).length + 1 = l.length := by
  intro l
  induction l with
  | nil => intro h; cases h
  | cons y ys ih =>
    intro h
    simp only [oremove]
    by_cases hxy : x = y
    · rw [if_pos hxy]
      simp
    · rw [if_neg hxy]
      rcases List.mem_cons.1 h with rfl | h2
      · exact absurd rfl hxy
      · simp only [List.length_cons]
        rw [← ih h2]

end OrderedSet

/-! ## The comparators are strict linear orders -/

theorem nltb_irrefl (a : N) : nltb a a = false := by
  simp [nltb]

theorem nltb_trans {a b c : N} (h1 : nltb a b = true) (h2 : nltb b c = true) :
    nltb a c = true := by
  simp only [nltb, decide_eq_true_eq] at *
  exact lt_trans h1 h2

theorem nltb_total {a b : N} (h : nltb a b = false) (hne : a ≠ b) : nltb b a = true := by
  simp only [nltb, decide_eq_true_eq, decide_eq_false_iff_not] at *
  exact lt_of_le_of_ne (le_of_not_lt h) (Ne.symm hne)

theorem nltb_asymm {a b : N} (h : nltb a b = true) : nltb b a = false := by
  simp only [nltb, decide_eq_true_eq, decide_eq_false_iff_not] at *
  exact lt_asymm h

theorem nltb_ne {a b : N} (h : nltb a b = true) : a ≠ b := by
  simp only [nltb, decide_eq_true_eq] at h
  exact ne_of_lt h

theorem optLt_irrefl (a : Option E) : optLt a a = false := by
  cases a <;> simp [optLt]

theorem optLt_trans {a b c : Option E} (h1 : optLt a b = true) (h2 : optLt b c = true) :
    optLt a c = true := by
  match a, b, c with
  | none, none, _ => simp [optLt] at h1
  | _, some x, none => simp [optLt] at h2
  | none, some x, some y => simp [optLt]
  | some x, none, _ => simp [optLt] at h1
  | some x, some y, some z =>
    simp only [optLt, decide_eq_true_eq] at *
    exact lt_trans h1 h2

theorem optLt_total {a b : Option E} (h : optLt a b = false) (hne : a ≠ b) :
    optLt b a = true := by
  match a, b with
  | none, none => exact absurd rfl hne
  | none, some x => simp [optLt] at h
  | some x, none => simp [optLt]
  | some x, some y =>
    simp only [optLt, decide_eq_false_iff_not, decide_eq_true_eq] at *
    exact lt_of_le_of_ne (le_of_not_lt h) (fun he => hne (by rw [he]))

theorem optLt_asymm {a b : Option E} (h : optLt a b = true) : optLt b a = false := by
  match a, b with
  | none, none => simp [optLt] at h
  | none, some x => simp [optLt]
  | some x, none => simp [optLt] at h
  | some x, some y =>
    simp only [optLt, decide_eq_true_eq, decide_eq_false_iff_not] at *
    exact lt_asymm h

theorem edgeLt_irrefl (a : N × Option E) : edgeLt a a = false := by
  simp [edgeLt, optLt_irrefl]

theorem edgeLt_trans {a b c : N × Option E} (h1 : edgeLt a b = true)
    (h2 : edgeLt b c = true) : edgeLt a c = true := by
  simp only [edgeLt, Bool.or_eq_true, Bool.and_eq_true, decide_eq_true_eq] at *
  rcases h1 with h1 | ⟨h1e, h1o⟩ <;> rcases h2 with h2 | ⟨h2e, h2o⟩
  · exact Or.inl (lt_trans h1 h2)
  · exact Or.inl (h2e ▸ h1)
  · exact Or.inl (h1e ▸ h2)
  · exact Or.inr ⟨h1e.trans h2e, optLt_trans h1o h2o⟩

theorem edgeLt_total {a b : N × Option E} (h : edgeLt a b = false) (hne : a ≠ b) :
    edgeLt b a = true := by
  simp only [edgeLt, Bool.or_eq_false_iff, Bool.and_eq_false_iff, Bool.or_eq_true,
    Bool.and_eq_true, decide_eq_true_eq, decide_eq_false_iff_not] at *
  obtain ⟨hlt, hrest⟩ := h
  by_cases he : a.1 = b.1
  · rcases hrest with hc | ho
    · exact absurd he hc
    · refine Or.inr ⟨he.symm, optLt_total (bool_false_of_not (by simp [ho])) ?_⟩
      intro hw
      exact hne (Prod.ext he hw)
  · exact Or.inl (lt_of_le_of_ne (le_of_not_lt hlt) (Ne.symm he))

theorem edgeLt_asymm {a b : N × Option E} (h : edgeLt a b = true) : edgeLt b a = false := by
  simp only [edgeLt, Bool.or_eq_true, Bool.and_eq_true, decide_eq_true_eq,
    Bool.or_eq_false_iff, Bool.and_eq_false_iff, decide_eq_false_iff_not] at *
  rcases h with h | ⟨he, ho⟩
  · exact ⟨fun h2 => lt_asymm h h2, Or.inl (fun he => (he ▸ lt_irrefl _ : ¬_) h)⟩
  · refine ⟨fun h2 => (he ▸ lt_irrefl _ : ¬_) h2, Or.inr ?_⟩
    simp [optLt_asymm ho]

/-! ## Ordering predicates on the container models -/

/-- The node registry's element list is strictly ascending. -/
def NodesOrd (l : List N) : Prop := l.Pairwise (fun a b : N => nltb a b = true)

/-- An outgoing-edge set's element list is strictly ascending. -/
def EsetOrd (l : List (N × Option E)) : Prop :=
  l.Pairwise (fun a b => edgeLt a b = true)

theorem NodesOrd.nodup {l : List N} (h : NodesOrd l) : l.Nodup :=
  h.imp (fun hab => nltb_ne hab)

theorem nodesOrd_nsetInsert {l : List N} (h : NodesOrd l) (x : N) :
    NodesOrd (nsetInsert x l) :=
  pairwise_oinsert nltb (fun _ _ _ => nltb_trans) (fun _ _ => nltb_total) x l h

theorem esetOrd_esetInsert {l : List (N × Option E)} (h : EsetOrd l) (x : N × Option E) :
    EsetOrd (esetInsert x l) :=
  pairwise_oinsert edgeLt (fun _ _ _ => edgeLt_trans) (fun _ _ => edgeLt_total) x l h

theorem nodesOrd_nsetRemove {l : List N} (h : NodesOrd l) (x : N) :
    NodesOrd (nsetRemove x l) :=
  List.Pairwise.sublist (oremove_sublist x l) h

theorem esetOrd_esetRemove {l : List (N × Option E)} (h : EsetOrd l) (x : N × Option E) :
    EsetOrd (esetRemove x l) :=
  List.Pairwise.sublist (oremove_sublist x l) h

theorem esetOrd_filter {l : List (N × Option E)} (h : EsetOrd l)
    (p : N × Option E → Bool) : EsetOrd (l.filter p) :=
  List.Pairwise.sublist (List.filter_sublist l) h

/-! ## Lemmas about the edge-table model -/

theorem emapGet_emapInsert (k k' : N) (v : List (N × Option E))
    (l : List (N × List (N × Option E))) :
    emapGet k (emapInsert k' v l) =
      if k = k' then some v else emapGet k l := by
  induction l with
  | nil => by_cases h : k = k' <;> simp [emapInsert, emapGet, h]
  | cons p rest ih =>
    simp only [emapInsert]
    by_cases h1 : k' < p.1
    · rw [if_pos h1]
      by_cases h : k = k' <;> simp [emapGet, h]
    · rw [if_neg h1]
      by_cases h2 : k' = p.1
      · rw [if_pos h2]
        by_cases h : k = k'
        · simp [emapGet, h]
        · have h3 : ¬k = p.1 := fun he => h (he.trans h2.symm)
          simp [emapGet, h, h3]
      · rw [if_neg h2]
        by_cases h3 : k = p.1
        · have h : ¬k = k' := fun he => h2 (he.symm.trans h3)
          have h4 : ¬p.1 = k' := fun he => h (h3.trans he)
          simp [emapGet, h3, h, h4]
        · simp [emapGet, h3, ih]

theorem emapGet_emapModify (k k' : N) (f : List (N × Option E) → List (N × Option E))
    (l : List (N × List (N × Option E))) :
    emapGet k (emapModify k' f l) =
      if k = k' then Option.map f (emapGet k l) else emapGet k l := by
  induction l with
  | nil => by_cases h : k = k' <;> simp [emapModify, emapGet, h]
  | cons p rest ih =>
    simp only [emapModify]
    by_cases h1 : k' = p.1
    · rw [if_pos h1]
      by_cases h : k = p.1
      · have h2 : k = k' := h.trans h1.symm
        simp [emapGet, h, h2, h1.symm]
      · have h2 : ¬k = k' := fun he => h (he.trans h1)
        simp [emapGet, h, h2]
    · rw [if_neg h1]
      by_cases h : k = p.1
      · have h2 : ¬k = k' := fun he => h1 (he.symm.trans h)
        have h4 : ¬p.1 = k' := fun he => h1 he.symm
        simp [emapGet, h, h2, h4]
      · simp [emapGet, h, ih]

theorem emapGet_emapRemove_ne {k k' : N} (hne : k ≠ k')
    (l : List (N × List (N × Option E))) :
    emapGet k (emapRemove k' l) = emapGet k l := by
  induction l with
  | nil => rfl
  | cons p rest ih =>
    simp only [emapRemove]
    by_cases h1 : k' = p.1
    · rw [if_pos h1]
      simp only [emapGet]
      rw [if_neg (fun he => hne (he.trans h1.symm))]
    · rw [if_neg h1]
      simp only [emapGet]
      by_cases h : k = p.1
      · rw [if_pos h, if_pos h]
      · rw [if_neg h, if_neg h, ih]

theorem emapGet_eq_none_of_not_mem {k : N} {l : List (N × List (N × Option E))}
    (h : k ∉ l.map Prod.fst) : emapGet k l = none := by
  induction l with
  | nil => rfl
  | cons p rest ih =>
    simp only [List.map_cons, List.mem_cons, not_or] at h
    simp only [emapGet]
    rw [if_neg h.1]
    exact ih h.2

theorem map_fst_emapInsert (k : N) (v : List (N × Option E))
    (l : List (N × List (N × Option E))) :
    (emapInsert k v l).map Prod.fst = oinsert nltb k (l.map Prod.fst) := by
  induction l with
  | nil => rfl
  | cons p rest ih =>
    simp only [emapInsert, List.map_cons, oinsert]
    by_cases h1 : k < p.1
    · rw [if_pos h1]
      have hb : nltb k p.1 = true := by simp [nltb, h1]
      simp [hb]
    · rw [if_neg h1]
      have hb : nltb k p.1 = false := by simp [nltb, h1]
      by_cases h2 : k = p.1
      · rw [if_pos h2]
        simp [hb, h2, nltb_irrefl]
      · rw [if_neg h2]
        simp [hb, h2, ih]

theorem map_fst_emapModify (k : N) (f : List (N × Option E) → List (N × Option E))
    (l : List (N × List (N × Option E))) :
    (emapModify k f l).map Prod.fst = l.map Prod.fst := by
  induction l with
  | nil => rfl
  | cons p rest ih =>
    simp only [emapModify]
    by_cases h1 : k = p.1
    · rw [if_pos h1]
      simp only [List.map_cons]
    · rw [if_neg h1]
      simp only [List.map_cons, ih]

theorem map_fst_emapRemove (k : N) (l : List (N × List (N × Option E))) :
    (emapRemove k l).map Prod.fst = oremove k (l.map Prod.fst) := by
  induction l with
  | nil => rfl
  | cons p rest ih =>
    simp only [emapRemove, List.map_cons, oremove]
    by_cases h1 : k = p.1
    · rw [if_pos h1, if_pos h1]
    · rw [if_neg h1, if_neg h1]
      simp only [List.map_cons, ih]

theorem emapGet_emapRemove_self {k : N} {l : List (N × List (N × Option E))}
    (hnd : (l.map Prod.fst).Nodup) :
    emapGet k (emapRemove k l) = none := by
  apply emapGet_eq_none_of_not_mem
  rw [map_fst_emapRemove]
  exact not_mem_oremove hnd

theorem mem_emapInsert {p : N × List (N × Option E)} {k : N} {v : List (N × Option E)}
    {l : List (N × List (N × Option E))} (h : p ∈ emapInsert k v l) :
    p = (k, v) ∨ p ∈ l := by
  induction l with
  | nil =>
    simp only [emapInsert] at h
    rcases List.mem_singleton.1 h with rfl
    exact Or.inl rfl
  | cons q rest ih =>
    simp only [emapInsert] at h
    by_cases h1 : k < q.1
    · rw [if_pos h1] at h
      rcases List.mem_cons.1 h with rfl | h2
      · exact Or.inl rfl
      · exact Or.inr h2
    · rw [if_neg h1] at h
      by_cases h2 : k = q.1
      · rw [if_pos h2] at h
        rcases List.mem_cons.1 h with rfl | h3
        · exact Or.inl rfl
        · exact Or.inr (List.mem_cons_of_mem _ h3)
      · rw [if_neg h2] at h
        rcases List.mem_cons.1 h with rfl | h3
        · exact Or.inr (List.mem_cons_self _ _)
        · rcases ih h3 with h4 | h4
          · exact Or.inl h4
          · exact Or.inr (List.mem_cons_of_mem _ h4)

theorem mem_emapModify {p : N × List (N × Option E)} {k : N}
    {f : List (N × Option E) → List (N × Option E)}
    {l : List (N × List (N × Option E))} (h : p ∈ emapModify k f l) :
    p ∈ l ∨ ∃ q ∈ l, p = (q.1, f q.2) := by
  induction l with
  | nil => cases h
  | cons q rest ih =>
    simp only [emapModify] at h
    by_cases h1 : k = q.1
    · rw [if_pos h1] at h
      rcases List.mem_cons.1 h with rfl | h2
      · exact Or.inr ⟨q, List.mem_cons_self _ _, rfl⟩
      · exact Or.inl (List.mem_cons_of_mem _ h2)
    · rw [if_neg h1] at h
      rcases List.mem_cons.1 h with rfl | h2
      · exact Or.inl (List.mem_cons_self _ _)
      · rcases ih h2 with h3 | ⟨r, hr, he⟩
        · exact Or.inl (List.mem_cons_of_mem _ h3)
        · exact Or.inr ⟨r, List.mem_cons_of_mem _ hr, he⟩

theorem mem_emapRemove {p : N × List (N × Option E)} {k : N}
    {l : List (N × List (N × Option E))} (h : p ∈ emapRemove k l) : p ∈ l := by
  induction l with
  | nil => cases h
  | cons q rest ih =>
    simp only [emapRemove] at h
    by_cases h1 : k = q.1
    · rw [if_pos h1] at h
      exact List.mem_cons_of_mem _ h
    · rw [if_neg h1] at h
      rcases List.mem_cons.1 h with rfl | h2
      · exact List.mem_cons_self _ _
      · exact List.mem_cons_of_mem _ (ih h2)

theorem emapGet_isSome_iff (k : N) (l : List (N × List (N × Option E))) :
    (emapGet k l).isSome = true ↔ k ∈ l.map Prod.fst := by
  induction l with
  | nil => simp [emapGet]
  | cons p rest ih =>
    simp only [emapGet, List.map_cons, List.mem_cons]
    by_cases h : k = p.1
    · rw [if_pos h]
      simp [h]
    · rw [if_neg h]
      simp [h, ih]

theorem emapGet_mem {k : N} {v : List (N × Option E)}
    {l : List (N × List (N × Option E))} (h : emapGet k l = some v) : (k, v) ∈ l := by
  induction l with
  | nil => cases h
  | cons p rest ih =>
    simp only [emapGet] at h
    by_cases h1 : k = p.1
    · rw [if_pos h1] at h
      rcases Option.some_inj.1 h with rfl
      rw [h1]
      exact List.mem_cons_self _ _
    · rw [if_neg h1] at h
      exact List.mem_cons_of_mem _ (ih h)

theorem emapGet_of_mem {k : N} {v : List (N × Option E)}
    {l : List (N × List (N × Option E))} (hnd : (l.map Prod.fst).Nodup)
    (h : (k, v) ∈ l) : emapGet k l = some v := by
  induction l with
  | nil => cases h
  | cons p rest ih =>
    simp only [List.map_cons, List.nodup_cons] at hnd
    simp only [emapGet]
    rcases List.mem_cons.1 h with he | h2
    · rw [if_pos (congrArg Prod.fst he)]
      rw [← he]
    · rw [if_neg ?_]
      · exact ih hnd.2 h2
      · intro hk
        exact hnd.1 (hk ▸ List.mem_map_of_mem Prod.fst h2)

/-! ## Well-formedness: the representation every reachable graph satisfies -/

/-- Structural well-formedness of the container representation: both
B-trees present strictly ascending element lists, the edge table's key
list is exactly the node list, and every stored destination is a
registered node. -/
def Graph.WF (g : Graph N E) : Prop :=
  NodesOrd g.nodes ∧
  g.edges.map Prod.fst = g.nodes ∧
  (∀ p ∈ g.edges, EsetOrd p.2) ∧
  (∀ p ∈ g.edges, ∀ q ∈ p.2, q.1 ∈ g.nodes)

instance (g : Graph N E) : Decidable g.WF := by
  unfold Graph.WF NodesOrd EsetOrd
  infer_instance

theorem Graph.WF.keysNodup {g : Graph N E} (h : g.WF) :
    (g.edges.map Prod.fst).Nodup := by
  rw [h.2.1]
  exact h.1.nodup

theorem is_node_iff (g : Graph N E) (n : N) : g.is_node n = true ↔ n ∈ g.nodes := by
  simp [Graph.is_node]

theorem Graph.WF.get_isSome {g : Graph N E} (h : g.WF) {n : N}
    (hn : n ∈ g.nodes) : (emapGet n g.edges).isSome = true := by
  rw [emapGet_isSome_iff, h.2.1]
  exact hn

theorem Graph.WF.node_of_get {g : Graph N E} (h : g.WF) {n : N}
    {s : List (N × Option E)} (hget : emapGet n g.edges = some s) : n ∈ g.nodes := by
  rw [← h.2.1]
  exact (emapGet_isSome_iff n g.edges).1 (by rw [hget]; rfl)

theorem Graph.WF.esetOrd_of_get {g : Graph N E} (h : g.WF) {n : N}
    {s : List (N × Option E)} (hget : emapGet n g.edges = some s) : EsetOrd s :=
  h.2.2.1 _ (emapGet_mem hget)

theorem Graph.WF.dst_of_get {g : Graph N E} (h : g.WF) {n : N}
    {s : List (N × Option E)} (hget : emapGet n g.edges = some s) :
    ∀ q ∈ s, q.1 ∈ g.nodes :=
  h.2.2.2 _ (emapGet_mem hget)

theorem wf_new : (Graph.new : Graph N E).WF := by
  refine ⟨List.Pairwise.nil, rfl, ?_, ?_⟩ <;> intro p hp <;> cases hp

theorem wf_add_node {g : Graph N E} (h : g.WF) (n : N) : (g.add_node n).2.WF := by
  rw [Graph.add_node]
  by_cases hn : g.is_node n = true
  · rw [if_pos hn]
    exact h
  · rw [if_neg hn]
    refine ⟨nodesOrd_nsetInsert h.1 n, ?_, ?_, ?_⟩
    · show (emapInsert n [] g.edges).map Prod.fst = nsetInsert n g.nodes
      rw [map_fst_emapInsert, h.2.1]
      rfl
    · intro p hp
      rcases mem_emapInsert hp with rfl | hp2
      · exact List.Pairwise.nil
      · exact h.2.2.1 p hp2
    · intro p hp q hq
      rcases mem_emapInsert hp with rfl | hp2
      · cases hq
      · rw [show (nsetInsert n g.nodes) = oinsert nltb n g.nodes from rfl,
          mem_oinsert]
        exact Or.inr (h.2.2.2 p hp2 q hq)

theorem wf_add_edge {g : Graph N E} (h : g.WF) (a b : N) (w : Option E) :
    (g.add_edge a b w).2.WF := by
  rw [Graph.add_edge]
  by_cases he : g.is_edge a b w = true
  · rw [if_pos he]
    exact h
  · rw [if_neg he]
    cases hget : emapGet a g.edges with
    | none => exact h
    | some s =>
      dsimp only
      by_cases hb : g.is_node b = true
      · rw [if_pos hb]
        refine ⟨h.1, ?_, ?_, ?_⟩
        · show (emapInsert a (esetInsert (b, w) s) g.edges).map Prod.fst = g.nodes
          rw [map_fst_emapInsert, h.2.1]
          exact oinsert_of_mem nltb nltb_irrefl (fun _ _ => nltb_asymm) a h.1
            (h.node_of_get hget)
        · intro p hp
          rcases mem_emapInsert hp with rfl | hp2
          · exact esetOrd_esetInsert (h.esetOrd_of_get hget) _
          · exact h.2.2.1 p hp2
        · intro p hp q hq
          rcases mem_emapInsert hp with rfl | hp2
          · rcases (mem_oinsert edgeLt (b, w) q s).1 hq with rfl | hq2
            · exact (is_node_iff g b).1 hb
            · exact h.dst_of_get hget q hq2
          · exact h.2.2.2 p hp2 q hq
      · rw [if_neg hb]
        exact h

theorem wf_remove_node {g : Graph N E} (h : g.WF) (n : N) : (g.remove_node n).2.WF := by
  rw [Graph.remove_node]
  by_cases hn : g.is_node n = true
  · rw [if_neg (by simp [hn])]
    refine ⟨nodesOrd_nsetRemove h.1 n, ?_, ?_, ?_⟩
    · show ((emapRemove n g.edges).map _).map Prod.fst = nsetRemove n g.nodes
      rw [List.map_map]
      have : (Prod.fst ∘ fun p : N × List (N × Option E) =>
          (p.1, p.2.filter (fun q => decide (q.1 ≠ n)))) = Prod.fst := rfl
      rw [this, map_fst_emapRemove, h.2.1]
      rfl
    · intro p hp
      rcases List.mem_map.1 hp with ⟨p0, hp0, rfl⟩
      exact esetOrd_filter (h.2.2.1 p0 (mem_emapRemove hp0)) _
    · intro p hp q hq
      rcases List.mem_map.1 hp with ⟨p0, hp0, rfl⟩
      simp only [List.mem_filter, decide_eq_true_eq] at hq
      exact mem_oremove_of_ne hq.2 (h.2.2.2 p0 (mem_emapRemove hp0) q hq.1)
  · rw [if_pos (by simp [bool_false_of_not hn])]
    exact h

theorem wf_remove_edge {g : Graph N E} (h : g.WF) (a b : N) (w : Option E) :
    (g.remove_edge a b w).2.WF := by
  rw [Graph.remove_edge]
  by_cases he : g.is_edge a b w = true
  · rw [if_neg (by simp [he])]
    refine ⟨h.1, ?_, ?_, ?_⟩
    · show (emapModify a (esetRemove (b, w)) g.edges).map Prod.fst = g.nodes
      rw [map_fst_emapModify, h.2.1]
    · intro p hp
      rcases mem_emapModify hp with hp2 | ⟨p0, hp0, rfl⟩
      · exact h.2.2.1 p hp2
      · exact esetOrd_esetRemove (h.2.2.1 p0 hp0) _
    · intro p hp q hq
      rcases mem_emapModify hp with hp2 | ⟨p0, hp0, rfl⟩
      · exact h.2.2.2 p hp2 q hq
      · exact h.2.2.2 p0 hp0 q (mem_of_mem_oremove hq)
  · rw [if_pos (by simp [bool_false_of_not he])]
    exact h

theorem wf_add_undirected_edge {g : Graph N E} (h : g.WF) (a b : N) (w : Option E) :
    (g.add_undirected_edge a b w).2.WF := by
  rw [Graph.add_undirected_edge]
  by_cases hab : a = b
  · rw [if_pos hab]
    exact h
  · rw [if_neg hab]
    by_cases hpre : (g.is_edge a b w || g.is_edge b a w) = true
    · rw [if_pos hpre]
      exact h
    · rw [if_neg hpre]
      by_cases hr1 : (g.add_edge a b w).1 = true
      · rw [if_pos hr1]
        exact wf_add_edge (wf_add_edge h a b w) b a w
      · rw [if_neg hr1]
        exact wf_add_edge h a b w

/-- The graphs constructible through the library's mutation API, starting
from `Graph::new`. -/
inductive Graph.Reachable : Graph N E → Prop where
  | empty : Graph.Reachable Graph.new
  | step_add_node (g : Graph N E) (n : N) :
      g.Reachable → (g.add_node n).2.Reachable
  | step_remove_node (g : Graph N E) (n : N) :
      g.Reachable → (g.remove_node n).2.Reachable
  | step_add_edge (g : Graph N E) (a b : N) (w : Option E) :
      g.Reachable → (g.add_edge a b w).2.Reachable
  | step_remove_edge (g : Graph N E) (a b : N) (w : Option E) :
      g.Reachable → (g.remove_edge a b w).2.Reachable
  | step_add_undirected_edge (g : Graph N E) (a b : N) (w : Option E) :
      g.Reachable → (g.add_undirected_edge a b w).2.Reachable

theorem Graph.Reachable.wf {g : Graph N E} (h : g.Reachable) : g.WF := by
  induction h with
  | empty => exact wf_new
  | step_add_node g n _ ih => exact wf_add_node ih n
  | step_remove_node g n _ ih => exact wf_remove_node ih n
  | step_add_edge g a b w _ ih => exact wf_add_edge ih a b w
  | step_remove_edge g a b w _ ih => exact wf_remove_edge ih a b w
  | step_add_undirected_edge g a b w _ ih => exact wf_add_undirected_edge ih a b w

/-- The data-model invariant of §3 of the specification: every registered
node has a (possibly empty) outgoing-edge-set entry, the edge table has no
entry for an unregistered node, and every stored destination is a
registered node. -/
def Graph.EdgeInvariant (g : Graph N E) : Prop :=
  (∀ n ∈ g.nodes, (emapGet n g.edges).isSome = true) ∧
  (∀ p ∈ g.edges, p.1 ∈ g.nodes) ∧
  (∀ p ∈ g.edges, ∀ q ∈ p.2, q.1 ∈ g.nodes)

theorem Graph.WF.edgeInvariant {g : Graph N E} (h : g.WF) : g.EdgeInvariant := by
  refine ⟨?_, ?_, h.2.2.2⟩
  · intro n hn
    exact h.get_isSome hn
  · intro p hp
    rw [← h.2.1]
    exact List.mem_map_of_mem Prod.fst hp

/-! ## Behavioral lemmas for the mutation operations -/

theorem is_edge_iff (g : Graph N E) (a b : N) (w : Option E) :
    g.is_edge a b w = true ↔
      b ∈ g.nodes ∧ ∃ s, emapGet a g.edges = some s ∧ (b, w) ∈ s := by
  rw [Graph.is_edge]
  by_cases hb : g.is_node b = true
  · rw [if_neg (by simp [hb])]
    cases hget : emapGet a g.edges with
    | none =>
      simp only [(is_node_iff g b).1 hb, true_and]
      constructor
      · intro h
        cases h
      · rintro ⟨s, hs, _⟩
        cases hs
    | some s =>
      simp only [(is_node_iff g b).1 hb, true_and, List.any_eq_true,
        Bool.and_eq_true, decide_eq_true_eq]
      constructor
      · rintro ⟨p, hp, h1, h2⟩
        have he2 : (b, w) = p := by rw [← h1, h2]
        exact ⟨s, rfl, he2 ▸ hp⟩
      · rintro ⟨s2, hs2, hmem⟩
        rcases Option.some_inj.1 hs2 with rfl
        exact ⟨(b, w), hmem, rfl, rfl⟩
  · rw [if_pos (by simp [bool_false_of_not hb])]
    constructor
    · intro h
      cases h
    · rintro ⟨hm, -⟩
      exact absurd ((is_node_iff g b).2 hm) hb

theorem add_node_of_false {g : Graph N E} {n : N}
    (h : (g.add_node n).1 = false) : (g.add_node n).2 = g := by
  rw [Graph.add_node] at *
  by_cases hn : g.is_node n = true
  · rw [if_pos hn]
  · rw [if_neg hn] at h
    cases h

theorem remove_node_of_false {g : Graph N E} {n : N}
    (h : (g.remove_node n).1 = false) : (g.remove_node n).2 = g := by
  rw [Graph.remove_node] at *
  by_cases hn : g.is_node n = true
  · rw [if_neg (by simp [hn])] at h
    cases h
  · rw [if_pos (by simp [bool_false_of_not hn])]

theorem add_edge_of_false {g : Graph N E} {a b : N} {w : Option E}
    (h : (g.add_edge a b w).1 = false) : (g.add_edge a b w).2 = g := by
  by_cases he : g.is_edge a b w = true
  · simp [Graph.add_edge, he]
  · cases hget : emapGet a g.edges with
    | none => simp [Graph.add_edge, he, hget]
    | some s =>
      by_cases hb : g.is_node b = true
      · simp [Graph.add_edge, he, hget, hb] at h
      · simp [Graph.add_edge, he, hget, hb]

theorem remove_edge_of_false {g : Graph N E} {a b : N} {w : Option E}
    (h : (g.remove_edge a b w).1 = false) : (g.remove_edge a b w).2 = g := by
  rw [Graph.remove_edge] at *
  by_cases he : g.is_edge a b w = true
  · rw [if_neg (by simp [he])] at h
    cases h
  · rw [if_pos (by simp [bool_false_of_not he])]

/-- Shape of a successful `add_edge`: the pre-state facts it implies and
the exact post-state. -/
theorem add_edge_success {g : Graph N E} {a b : N} {w : Option E}
    (h : (g.add_edge a b w).1 = true) :
    ∃ s, emapGet a g.edges = some s ∧ g.is_edge a b w = false ∧
      g.is_node b = true ∧
      (g.add_edge a b w).2 =
        ⟨g.nodes, emapInsert a (esetInsert (b, w) s) g.edges⟩ := by
  by_cases he : g.is_edge a b w = true
  · simp [Graph.add_edge, he] at h
  · cases hget : emapGet a g.edges with
    | none => simp [Graph.add_edge, he, hget] at h
    | some s =>
      by_cases hb : g.is_node b = true
      · refine ⟨s, rfl, bool_false_of_not he, hb, ?_⟩
        simp [Graph.add_edge, he, hget, hb]
      · simp [Graph.add_edge, he, hget, hb] at h

theorem add_edge_true_of {g : Graph N E} (hwf : g.WF) {a b : N} {w : Option E}
    (hne : g.is_edge a b w = false) (ha : a ∈ g.nodes) (hb : b ∈ g.nodes) :
    (g.add_edge a b w).1 = true := by
  cases hget : emapGet a g.edges with
  | none =>
    have h2 := hwf.get_isSome ha
    rw [hget] at h2
    cases h2
  | some s =>
    simp [Graph.add_edge, hne, hget, (is_node_iff g b).2 hb]

/-- A successful `add_edge a b w` makes `(a, b, w)` an edge and affects no
other `is_edge` query. -/
theorem is_edge_after_add {g : Graph N E} {a b : N} {w : Option E}
    (h : (g.add_edge a b w).1 = true) (x y : N) (w2 : Option E) :
    ((g.add_edge a b w).2.is_edge x y w2 = true ↔
      (x = a ∧ y = b ∧ w2 = w) ∨ g.is_edge x y w2 = true) := by
  obtain ⟨s, hget, hne, hb, hshape⟩ := add_edge_success h
  rw [hshape, is_edge_iff, is_edge_iff]
  show y ∈ g.nodes ∧ _ ↔ _
  rw [show (Graph.mk g.nodes (emapInsert a (esetInsert (b, w) s) g.edges) :
    Graph N E).edges = emapInsert a (esetInsert (b, w) s) g.edges from rfl]
  by_cases hx : x = a
  · subst hx
    rw [emapGet_emapInsert, if_pos rfl]
    constructor
    · rintro ⟨hy, s2, hs2, hmem⟩
      rcases Option.some_inj.1 hs2 with rfl
      rcases (mem_oinsert edgeLt (b, w) (y, w2) s).1 hmem with he | hmem2
      · exact Or.inl ⟨rfl, congrArg Prod.fst he, congrArg Prod.snd he⟩
      · exact Or.inr ⟨hy, s, hget, hmem2⟩
    · rintro (⟨-, rfl, rfl⟩ | ⟨hy, s2, hs2, hmem⟩)
      · exact ⟨(is_node_iff g _).1 hb, _, rfl,
          (mem_oinsert edgeLt _ _ s).2 (Or.inl rfl)⟩
      · rw [hget] at hs2
        rcases Option.some_inj.1 hs2 with rfl
        exact ⟨hy, _, rfl, (mem_oinsert edgeLt _ _ _).2 (Or.inr hmem)⟩
  · rw [emapGet_emapInsert, if_neg hx]
    constructor
    · intro hh
      exact Or.inr hh
    · rintro (⟨hxa, -, -⟩ | hh)
      · exact absurd hxa hx
      · exact hh

/-- When the first directed insertion of `add_undirected_edge` succeeds,
the second always succeeds too (on a well-formed graph). -/
theorem add_undirected_second_true {g : Graph N E} (hwf : g.WF) {a b : N}
    {w : Option E} (hab : a ≠ b) (hrev : g.is_edge b a w = false)
    (hr1 : (g.add_edge a b w).1 = true) :
    ((g.add_edge a b w).2.add_edge b a w).1 = true := by
  obtain ⟨s, hget, hne, hb, hshape⟩ := add_edge_success hr1
  have hwf1 : (g.add_edge a b w).2.WF := wf_add_edge hwf a b w
  have ha : a ∈ g.nodes := hwf.node_of_get hget
  apply add_edge_true_of hwf1
  · rw [Bool.eq_false_iff]
    intro htrue
    rw [is_edge_after_add hr1] at htrue
    rcases htrue with ⟨hba, -, -⟩ | htrue
    · exact hab hba.symm
    · rw [htrue] at hrev
      cases hrev
  · rw [hshape]
    exact (is_node_iff g b).1 hb
  · rw [hshape]
    exact ha

/-- C2 is checked against this statement: whenever a mutating operation
reports `false`, the post-state equals the pre-state. -/
theorem mutations_atomic (g : Graph N E) (hwf : g.WF) :
    (∀ n, (g.add_node n).1 = false → (g.add_node n).2 = g) ∧
    (∀ n, (g.remove_node n).1 = false → (g.remove_node n).2 = g) ∧
    (∀ a b w, (g.add_edge a b w).1 = false → (g.add_edge a b w).2 = g) ∧
    (∀ a b w, (g.remove_edge a b w).1 = false → (g.remove_edge a b w).2 = g) ∧
    (∀ a b w, (g.add_undirected_edge a b w).1 = false →
      (g.add_undirected_edge a b w).2 = g) := by
  refine ⟨fun n h => add_node_of_false h, fun n h => remove_node_of_false h,
    fun a b w h => add_edge_of_false h, fun a b w h => remove_edge_of_false h,
    fun a b w h => ?_⟩
  rw [Graph.add_undirected_edge] at *
  by_cases hab : a = b
  · rw [if_pos hab]
  · rw [if_neg hab] at *
    by_cases hpre : (g.is_edge a b w || g.is_edge b a w) = true
    · rw [if_pos hpre]
    · rw [if_neg hpre] at *
      by_cases hr1 : (g.add_edge a b w).1 = true
      · rw [if_pos hr1] at h
        have hrev : g.is_edge b a w = false := by
          rcases Bool.or_eq_false_iff.1 (bool_false_of_not hpre) with ⟨-, h2⟩
          exact h2
        have := add_undirected_second_true hwf hab hrev hr1
        rw [h] at this
        cases this
      · rw [if_neg hr1]
        exact add_edge_of_false (bool_false_of_not hr1)

/-! ## Claim C1 -/

/-- C1: for every graph reachable from the empty graph by any sequence of
`add_node`, `remove_node`, `add_edge`, `remove_edge` and
`add_undirected_edge` calls, every node present in the node registry has a
(possibly empty) outgoing-edge-set entry in the edge table, the edge table
has no entries for unregistered nodes, and every destination appearing in
any node's outgoing-edge set is itself a registered node. -/
theorem claim_C1_registry_invariant (g : Graph N E) (h : g.Reachable) :
    g.EdgeInvariant :=
  h.wf.edgeInvariant

theorem claim_C1_registry_invariant_witness :
    ((((Graph.new : Graph Nat Nat).add_node 1).2.add_node 2).2.add_edge 1 2
      (some 7)).2.EdgeInvariant :=
  claim_C1_registry_invariant _
    (Graph.Reachable.step_add_edge _ 1 2 (some 7)
      (Graph.Reachable.step_add_node _ 2
        (Graph.Reachable.step_add_node _ 1 Graph.Reachable.empty)))

/-! ## Claim C2 -/

/-- C2: every mutating operation (`add_node`, `remove_node`, `add_edge`,
`remove_edge`, `add_undirected_edge`) is atomic at single-call
granularity: whenever it returns `false`, the graph afterwards is exactly
the graph before the call; in particular `add_undirected_edge` never
leaves only one of the two directed edges inserted, for any arguments
including unregistered endpoints. -/
theorem claim_C2_mutations_atomic (g : Graph N E) (hwf : g.WF) :
    (∀ n, (g.add_node n).1 = false → (g.add_node n).2 = g) ∧
    (∀ n, (g.remove_node n).1 = false → (g.remove_node n).2 = g) ∧
    (∀ a b w, (g.add_edge a b w).1 = false → (g.add_edge a b w).2 = g) ∧
    (∀ a b w, (g.remove_edge a b w).1 = false → (g.remove_edge a b w).2 = g) ∧
    (∀ a b w, (g.add_undirected_edge a b w).1 = false →
      (g.add_undirected_edge a b w).2 = g) :=
  mutations_atomic g hwf

theorem claim_C2_mutations_atomic_witness :
    (Graph.mk [1, 2] [(1, []), (2, [])] : Graph Nat Nat).WF ∧
    (∀ a b w,
      ((Graph.mk [1, 2] [(1, []), (2, [])] : Graph Nat Nat).add_undirected_edge
        a b w).1 = false →
      ((Graph.mk [1, 2] [(1, []), (2, [])] : Graph Nat Nat).add_undirected_edge
        a b w).2 = Graph.mk [1, 2] [(1, []), (2, [])]) :=
  ⟨by decide, (claim_C2_mutations_atomic _ (by decide)).2.2.2.2⟩

/-! ## Claim C6 -/

/-- The number of edges with `v` as source or destination, counting each
edge once: all of `v`'s outgoing set, plus the entries with destination
`v` in the other nodes' sets. -/
def Graph.edgesTouching (g : Graph N E) (v : N) : Nat :=
  (g.edges.map (fun p =>
    if p.1 = v then p.2.length
    else (p.2.filter (fun q => decide (q.1 = v))).length)).sum

theorem emapRemove_of_not_mem {v : N} {l : List (N × List (N × Option E))}
    (h : v ∉ l.map Prod.fst) : emapRemove v l = l := by
  induction l with
  | nil => rfl
  | cons p rest ih =>
    simp only [List.map_cons, List.mem_cons, not_or] at h
    simp only [emapRemove]
    rw [if_neg h.1, ih h.2]

theorem filter_split_length (v : N) (s : List (N × Option E)) :
    s.length = (s.filter (fun q => decide (q.1 ≠ v))).length +
      (s.filter (fun q => decide (q.1 = v))).length := by
  induction s with
  | nil => rfl
  | cons q qs ih =>
    simp only [List.filter_cons]
    by_cases h : q.1 = v
    · rw [if_neg (by simp [h]), if_pos (by simp [h])]
      simp only [List.length_cons]
      omega
    · rw [if_pos (by simp [h]), if_neg (by simp [h])]
      simp only [List.length_cons]
      omega

theorem sum_split_untouched (v : N) :
    ∀ rest : List (N × List (N × Option E)), (∀ r ∈ rest, r.1 ≠ v) →
    (rest.map (fun p => p.2.length)).sum =
      ((rest.map (fun p => (p.1, p.2.filter (fun q => decide (q.1 ≠ v))))).map
        (fun p => p.2.length)).sum +
      (rest.map (fun p => if p.1 = v then p.2.length
        else (p.2.filter (fun q => decide (q.1 = v))).length)).sum := by
  intro rest
  induction rest with
  | nil => intro _; rfl
  | cons p tl ih =>
    intro hk
    simp only [List.map_cons, List.sum_cons]
    rw [if_neg (hk p (List.mem_cons_self _ _)),
      ih (fun r hr => hk r (List.mem_cons_of_mem _ hr))]
    have := filter_split_length v p.2
    omega

theorem remove_count (v : N) :
    ∀ l : List (N × List (N × Option E)), (l.map Prod.fst).Nodup →
    (l.map (fun p => p.2.length)).sum =
      (((emapRemove v l).map
          (fun p => (p.1, p.2.filter (fun q => decide (q.1 ≠ v))))).map
        (fun p => p.2.length)).sum +
      (l.map (fun p => if p.1 = v then p.2.length
        else (p.2.filter (fun q => decide (q.1 = v))).length)).sum := by
  intro l
  induction l with
  | nil => intro _; rfl
  | cons p rest ih =>
    intro hnd
    simp only [List.map_cons, List.nodup_cons] at hnd
    simp only [emapRemove]
    by_cases h1 : v = p.1
    · rw [if_pos h1]
      simp only [List.map_cons, List.sum_cons, if_pos h1.symm]
      have hk : ∀ r ∈ rest, r.1 ≠ v := by
        intro r hr he
        apply hnd.1
        rw [← h1, ← he]
        exact List.mem_map_of_mem Prod.fst hr
      have := sum_split_untouched v rest hk
      omega
    · rw [if_neg h1]
      simp only [List.map_cons, List.sum_cons,
        if_neg (fun (he : p.1 = v) => h1 he.symm)]
      have h2 := ih hnd.2
      have h3 := filter_split_length v p.2
      omega

/-- C6: `remove_node(v)` returns `false` and changes nothing when `v` is
unregistered; otherwise it returns `true`, `v` is no longer a node, no
edge with `v` as source or destination remains, and `num_edges` after the
call equals `num_edges` before minus the number of edges that had `v` as
source or destination. -/
theorem claim_C6_remove_node (g : Graph N E) (hwf : g.WF) (v : N) :
    (g.is_node v = false →
      (g.remove_node v).1 = false ∧ (g.remove_node v).2 = g) ∧
    (g.is_node v = true →
      (g.remove_node v).1 = true ∧
      (g.remove_node v).2.is_node v = false ∧
      (∀ p ∈ (g.remove_node v).2.edges, p.1 ≠ v ∧ ∀ q ∈ p.2, q.1 ≠ v) ∧
      (g.remove_node v).2.num_edges = g.num_edges - g.edgesTouching v) := by
  constructor
  · intro hv
    constructor <;> simp [Graph.remove_node, hv]
  · intro hv
    have hshape : g.remove_node v =
        (true, ⟨nsetRemove v g.nodes,
          (emapRemove v g.edges).map
            (fun p => (p.1, p.2.filter (fun q => decide (q.1 ≠ v))))⟩) := by
      simp [Graph.remove_node, hv]
    rw [hshape]
    refine ⟨rfl, ?_, ?_, ?_⟩
    · exact decide_eq_false (not_mem_oremove hwf.1.nodup)
    · intro p hp
      rcases List.mem_map.1 hp with ⟨p0, hp0, rfl⟩
      constructor
      · intro he
        have hmem : p0.1 ∈ (emapRemove v g.edges).map Prod.fst :=
          List.mem_map_of_mem Prod.fst hp0
        rw [map_fst_emapRemove, he] at hmem
        exact not_mem_oremove hwf.keysNodup hmem
      · intro q hq
        simp only [List.mem_filter, decide_eq_true_eq] at hq
        exact hq.2
    · have h := remove_count v g.edges hwf.keysNodup
      show (((emapRemove v g.edges).map _).map _).sum = _
      rw [show g.num_edges = (g.edges.map (fun p => p.2.length)).sum from rfl,
        show g.edgesTouching v = (g.edges.map (fun p => if p.1 = v then p.2.length
          else (p.2.filter (fun q => decide (q.1 = v))).length)).sum from rfl]
      omega

theorem claim_C6_remove_node_witness :
    (Graph.mk [1, 2, 3] [(1, [(1, some 5), (2, some 4)]), (2, [(1, none)]),
      (3, [(2, some 9)])] : Graph Nat Nat).WF ∧
    ((Graph.mk [1, 2, 3] [(1, [(1, some 5), (2, some 4)]), (2, [(1, none)]),
      (3, [(2, some 9)])] : Graph Nat Nat).remove_node 1).1 = true ∧
    ((Graph.mk [1, 2, 3] [(1, [(1, some 5), (2, some 4)]), (2, [(1, none)]),
      (3, [(2, some 9)])] : Graph Nat Nat).remove_node 1).2.num_edges =
      (Graph.mk [1, 2, 3] [(1, [(1, some 5), (2, some 4)]), (2, [(1, none)]),
        (3, [(2, some 9)])] : Graph Nat Nat).num_edges -
      (Graph.mk [1, 2, 3] [(1, [(1, some 5), (2, some 4)]), (2, [(1, none)]),
        (3, [(2, some 9)])] : Graph Nat Nat).edgesTouching 1 := by
  refine ⟨by decide, ?_, ?_⟩
  · exact ((claim_C6_remove_node _ (by decide) 1).2 (by decide)).1
  · exact ((claim_C6_remove_node _ (by decide) 1).2 (by decide)).2.2.2

/-! ## Claims C7 and C10 -/

theorem add_undirected_unfold {g : Graph N E} {a b : N} {w : Option E}
    (hab : a ≠ b) (h1 : g.is_edge a b w = false) (h2 : g.is_edge b a w = false) :
    g.add_undirected_edge a b w =
      if (g.add_edge a b w).1 = true then (g.add_edge a b w).2.add_edge b a w
      else (false, (g.add_edge a b w).2) := by
  rw [Graph.add_undirected_edge, if_neg hab, if_neg (by simp [h1, h2])]

theorem add_edge_false_cases {g : Graph N E} {a b : N} {w : Option E}
    (hne : g.is_edge a b w = false) (h : (g.add_edge a b w).1 = false) :
    emapGet a g.edges = none ∨ g.is_node b = false := by
  cases hget : emapGet a g.edges with
  | none => exact Or.inl rfl
  | some s =>
    by_cases hb : g.is_node b = true
    · have : (g.add_edge a b w).1 = true := by
        simp [Graph.add_edge, hne, hget, hb]
      rw [this] at h
      cases h
    · exact Or.inr (bool_false_of_not hb)

/-- When `(a, b, w)` and `(b, a, w)` are both absent and `a ≠ b`, the
state after `add_undirected_edge(a, b, w)` coincides with the state after
the call sequence `add_edge(a, b, w); add_edge(b, a, w)`. -/
theorem add_undirected_eq_two_adds {g : Graph N E} (hwf : g.WF) {a b : N}
    {w : Option E} (hab : a ≠ b) (h1 : g.is_edge a b w = false)
    (h2 : g.is_edge b a w = false) :
    (g.add_undirected_edge a b w).2 = ((g.add_edge a b w).2.add_edge b a w).2 := by
  rw [add_undirected_unfold hab h1 h2]
  by_cases hr1 : (g.add_edge a b w).1 = true
  · rw [if_pos hr1]
  · rw [if_neg hr1]
    have hg : (g.add_edge a b w).2 = g := add_edge_of_false (bool_false_of_not hr1)
    show (g.add_edge a b w).2 = _
    rw [hg]
    rcases add_edge_false_cases h1 (bool_false_of_not hr1) with hc | hc
    · symm
      apply add_edge_of_false
      rw [Bool.eq_false_iff]
      intro htrue
      obtain ⟨s, hget, -, hnb, -⟩ := add_edge_success htrue
      have ha : b ∈ g.nodes := hwf.node_of_get hget
      have := hwf.get_isSome ((is_node_iff g a).1 hnb)
      rw [hc] at this
      cases this
    · symm
      apply add_edge_of_false
      rw [Bool.eq_false_iff]
      intro htrue
      obtain ⟨s, hget, -, -, -⟩ := add_edge_success htrue
      have hbn : b ∈ g.nodes := hwf.node_of_get hget
      rw [(is_node_iff g b).2 hbn] at hc
      cases hc

/-- Shape of a successful `add_undirected_edge`. -/
theorem add_undirected_success {g : Graph N E} {a b : N} {w : Option E}
    (h : (g.add_undirected_edge a b w).1 = true) :
    a ≠ b ∧ g.is_edge a b w = false ∧ g.is_edge b a w = false ∧
    (g.add_edge a b w).1 = true ∧
    ((g.add_edge a b w).2.add_edge b a w).1 = true ∧
    (g.add_undirected_edge a b w).2 = ((g.add_edge a b w).2.add_edge b a w).2 := by
  by_cases hab : a = b
  · rw [Graph.add_undirected_edge, if_pos hab] at h
    cases h
  · by_cases hpre : (g.is_edge a b w || g.is_edge b a w) = true
    · rw [Graph.add_undirected_edge, if_neg hab, if_pos hpre] at h
      cases h
    · rcases Bool.or_eq_false_iff.1 (bool_false_of_not hpre) with ⟨h1, h2⟩
      have hu := add_undirected_unfold hab h1 h2
      by_cases hr1 : (g.add_edge a b w).1 = true
      · rw [hu, if_pos hr1] at h ⊢
        exact ⟨hab, h1, h2, hr1, h, rfl⟩
      · rw [hu, if_neg hr1] at h
        cases h

/-- After a successful `add_undirected_edge a b w`, both directed edges
are present, and any other `is_edge` query is unchanged. -/
theorem is_edge_after_add_undirected {g : Graph N E} {a b : N} {w : Option E}
    (h : (g.add_undirected_edge a b w).1 = true) (x y : N) (w2 : Option E) :
    ((g.add_undirected_edge a b w).2.is_edge x y w2 = true ↔
      (x = a ∧ y = b ∧ w2 = w) ∨ (x = b ∧ y = a ∧ w2 = w) ∨
        g.is_edge x y w2 = true) := by
  obtain ⟨hab, h1, h2, hr1, hr2, hshape⟩ := add_undirected_success h
  rw [hshape, is_edge_after_add hr2, is_edge_after_add hr1]
  tauto

/-- C7 counterexample: on the graph with nodes `{1, 2}` and the single
edge `(2, 1, 5)`, `add_undirected_edge(1, 2, 5)` changes nothing, while
the sequence `add_edge(1, 2, 5); add_edge(2, 1, 5)` inserts `(1, 2, 5)` —
so the claimed unconditional equivalence is false. -/
theorem claim_C7_counterexample :
    ¬(((Graph.mk [1, 2] [(1, []), (2, [(1, some 5)])] :
        Graph Nat Nat).add_undirected_edge 1 2 (some 5)).2 =
      (((Graph.mk [1, 2] [(1, []), (2, [(1, some 5)])] :
        Graph Nat Nat).add_edge 1 2 (some 5)).2.add_edge 2 1 (some 5)).2) := by
  decide

/-- C7 (amended): when neither `(a, b, w)` nor `(b, a, w)` is already
present and `a ≠ b`, `add_undirected_edge(a, b, w)` has the same effect on
the graph as the two calls `add_edge(a, b, w)` and `add_edge(b, a, w)`;
when `a = b` it returns `false` and adds nothing; calling it a second time
with the same arguments returns `false`. -/
theorem claim_C7_add_undirected_edge (g : Graph N E) (hwf : g.WF) (a b : N)
    (w : Option E) :
    (a ≠ b → g.is_edge a b w = false → g.is_edge b a w = false →
      (g.add_undirected_edge a b w).2 = ((g.add_edge a b w).2.add_edge b a w).2) ∧
    (a = b → (g.add_undirected_edge a b w).1 = false ∧
      (g.add_undirected_edge a b w).2 = g) ∧
    ((g.add_undirected_edge a b w).2.add_undirected_edge a b w).1 = false := by
  refine ⟨fun hab h1 h2 => add_undirected_eq_two_adds hwf hab h1 h2,
    fun hab => by simp [Graph.add_undirected_edge, hab], ?_⟩
  by_cases hfst : (g.add_undirected_edge a b w).1 = true
  · obtain ⟨hab, -, -, -, -, -⟩ := add_undirected_success hfst
    have hedge : (g.add_undirected_edge a b w).2.is_edge a b w = true :=
      (is_edge_after_add_undirected hfst a b w).2 (Or.inl ⟨rfl, rfl, rfl⟩)
    rw [Graph.add_undirected_edge, if_neg hab, if_pos (by simp [hedge])]
  · have hg : (g.add_undirected_edge a b w).2 = g :=
      (mutations_atomic g hwf).2.2.2.2 a b w (bool_false_of_not hfst)
    rw [hg]
    exact bool_false_of_not hfst

theorem claim_C7_add_undirected_edge_witness :
    (Graph.mk [1, 2] [(1, []), (2, [])] : Graph Nat Nat).WF ∧
    ((Graph.mk [1, 2] [(1, []), (2, [])] :
        Graph Nat Nat).add_undirected_edge 1 2 (some 5)).2 =
      (((Graph.mk [1, 2] [(1, []), (2, [])] : Graph Nat Nat).add_edge 1 2
        (some 5)).2.add_edge 2 1 (some 5)).2 ∧
    (((Graph.mk [1, 2] [(1, []), (2, [])] :
        Graph Nat Nat).add_undirected_edge 1 2
        (some 5)).2.add_undirected_edge 1 2 (some 5)).1 = false :=
  ⟨by decide,
   (claim_C7_add_undirected_edge _ (by decide) 1 2 (some 5)).1 (by decide)
     (by decide) (by decide),
   (claim_C7_add_undirected_edge _ (by decide) 1 2 (some 5)).2.2⟩

/-- C10: the duplicate check in `add_undirected_edge` is weight-exact: if
the graph contains an edge between registered distinct `a` and `b` in
either direction with a weight `w2 ≠ w`, and neither `(a, b, w)` nor
`(b, a, w)` is present, then `add_undirected_edge(a, b, w)` still returns
`true`, inserts both `(a, b, w)` and `(b, a, w)`, and leaves the
previously existing differently-weighted edge in place. -/
theorem claim_C10_weight_exact_duplicate_check (g : Graph N E) (hwf : g.WF)
    (a b : N) (w w2 : Option E) (ha : a ∈ g.nodes) (hb : b ∈ g.nodes)
    (hab : a ≠ b) (hw : w2 ≠ w)
    (hex : g.is_edge a b w2 = true ∨ g.is_edge b a w2 = true)
    (h1 : g.is_edge a b w = false) (h2 : g.is_edge b a w = false) :
    (g.add_undirected_edge a b w).1 = true ∧
    (g.add_undirected_edge a b w).2.is_edge a b w = true ∧
    (g.add_undirected_edge a b w).2.is_edge b a w = true ∧
    ((g.is_edge a b w2 = true →
      (g.add_undirected_edge a b w).2.is_edge a b w2 = true) ∧
     (g.is_edge b a w2 = true →
      (g.add_undirected_edge a b w).2.is_edge b a w2 = true)) := by
  have hr1 : (g.add_edge a b w).1 = true := add_edge_true_of hwf h1 ha hb
  have hsucc : (g.add_undirected_edge a b w).1 = true := by
    rw [add_undirected_unfold hab h1 h2, if_pos hr1]
    exact add_undirected_second_true hwf hab h2 hr1
  refine ⟨hsucc,
    (is_edge_after_add_undirected hsucc a b w).2 (Or.inl ⟨rfl, rfl, rfl⟩),
    (is_edge_after_add_undirected hsucc b a w).2 (Or.inr (Or.inl ⟨rfl, rfl, rfl⟩)),
    fun hthere => (is_edge_after_add_undirected hsucc a b w2).2
      (Or.inr (Or.inr hthere)),
    fun hthere => (is_edge_after_add_undirected hsucc b a w2).2
      (Or.inr (Or.inr hthere))⟩

theorem claim_C10_weight_exact_duplicate_check_witness :
    (Graph.mk [1, 2] [(1, []), (2, [(1, some 9)])] : Graph Nat Nat).WF ∧
    ((Graph.mk [1, 2] [(1, []), (2, [(1, some 9)])] :
        Graph Nat Nat).add_undirected_edge 1 2 (some 5)).1 = true ∧
    ((Graph.mk [1, 2] [(1, []), (2, [(1, some 9)])] :
        Graph Nat Nat).add_undirected_edge 1 2 (some 5)).2.is_edge 2 1
      (some 9) = true := by
  refine ⟨by decide, ?_, ?_⟩
  · exact (claim_C10_weight_exact_duplicate_check _ (by decide) 1 2 (some 5)
      (some 9) (by decide) (by decide) (by decide) (by decide)
      (Or.inr (by decide)) (by decide) (by decide)).1
  · exact (claim_C10_weight_exact_duplicate_check _ (by decide) 1 2 (some 5)
      (some 9) (by decide) (by decide) (by decide) (by decide)
      (Or.inr (by decide)) (by decide) (by decide)).2.2.2.2 (by decide)

/-! ## Claim C8 -/

/-- C8: `edges(v)` and `connections(v)` return the `NodeNotFound` error if
and only if `v` is not a registered node, and return `Ok(None)` if and
only if `v` is registered and has zero outgoing edges — a node with no
edges and a nonexistent node are distinguished by the error, never by an
empty result. -/
theorem claim_C8_edges_connections (g : Graph N E) (hwf : g.WF) (v : N) :
    ((∃ e, g.edgesQ v = Except.error e) ↔ g.is_node v = false) ∧
    (g.edgesQ v = Except.ok none ↔ g.is_node v = true ∧ g.out_degree v = 0) ∧
    ((∃ e, g.connections v = Except.error e) ↔ g.is_node v = false) ∧
    (g.connections v = Except.ok none ↔
      g.is_node v = true ∧ g.out_degree v = 0) := by
  cases hget : emapGet v g.edges with
  | none =>
    have hv : g.is_node v = false := by
      rw [Bool.eq_false_iff]
      intro ht
      have h2 := hwf.get_isSome ((is_node_iff g v).1 ht)
      rw [hget] at h2
      cases h2
    refine ⟨?_, ?_, ?_, ?_⟩ <;>
      simp [Graph.edgesQ, Graph.connections, hget, hv]
  | some s =>
    have hv : g.is_node v = true := by
      rw [is_node_iff, ← hwf.2.1]
      rw [← emapGet_isSome_iff]
      rw [hget]
      rfl
    have hdeg : g.out_degree v = s.length := by
      rw [Graph.out_degree, hget]
    by_cases hs : s.isEmpty = true
    · have hlen : s.length = 0 := by
        cases s
        · rfl
        · cases hs
      refine ⟨?_, ?_, ?_, ?_⟩ <;>
        simp [Graph.edgesQ, Graph.connections, hget, hv, hs, hdeg, hlen]
    · have hlen : s.length ≠ 0 := by
        cases s
        · exact absurd rfl hs
        · simp
      refine ⟨?_, ?_, ?_, ?_⟩ <;>
        simp [Graph.edgesQ, Graph.connections, hget, hv, hs, hdeg, hlen]

theorem claim_C8_edges_connections_witness :
    (Graph.mk [1, 2] [(1, [(2, some 3)]), (2, [])] : Graph Nat Nat).WF ∧
    ((Graph.mk [1, 2] [(1, [(2, some 3)]), (2, [])] : Graph Nat Nat).edgesQ 2 =
      Except.ok none ↔
      (Graph.mk [1, 2] [(1, [(2, some 3)]), (2, [])] :
        Graph Nat Nat).is_node 2 = true ∧
      (Graph.mk [1, 2] [(1, [(2, some 3)]), (2, [])] :
        Graph Nat Nat).out_degree 2 = 0) ∧
    ((∃ e, (Graph.mk [1, 2] [(1, [(2, some 3)]), (2, [])] :
        Graph Nat Nat).connections 7 = Except.error e) ↔
      (Graph.mk [1, 2] [(1, [(2, some 3)]), (2, [])] :
        Graph Nat Nat).is_node 7 = false) :=
  ⟨by decide, (claim_C8_edges_connections _ (by decide) 2).2.1,
    (claim_C8_edges_connections _ (by decide) 7).2.2.1⟩

/-! ## Lemmas about the hash-map model -/

section HashMapLemmas

variable {V : Type}

theorem hmGet_mem {k : N} {v : V} {l : List (N × V)}
    (h : hmGet k l = some v) : (k, v) ∈ l := by
  induction l with
  | nil => cases h
  | cons p rest ih =>
    simp only [hmGet] at h
    by_cases h1 : k = p.1
    · rw [if_pos h1] at h
      rcases Option.some_inj.1 h with rfl
      rw [h1]
      exact List.mem_cons_self _ _
    · rw [if_neg h1] at h
      exact List.mem_cons_of_mem _ (ih h)

theorem hmGet_isSome_iff (k : N) (l : List (N × V)) :
    (hmGet k l).isSome = true ↔ k ∈ l.map Prod.fst := by
  induction l with
  | nil => simp [hmGet]
  | cons p rest ih =>
    simp only [hmGet, List.map_cons, List.mem_cons]
    by_cases h : k = p.1
    · rw [if_pos h]
      simp [h]
    · rw [if_neg h]
      simp [h, ih]

theorem hmGet_append (k : N) (l1 l2 : List (N × V)) :
    hmGet k (l1 ++ l2) =
      match hmGet k l1 with
      | some v => some v
      | none => hmGet k l2 := by
  induction l1 with
  | nil => rfl
  | cons p rest ih =>
    show hmGet k (p :: (rest ++ l2)) = _
    by_cases h : k = p.1
    · simp [hmGet, h]
    · simp [hmGet, h, ih]

theorem hmGet_replace_ne {k k' : N} {v : V} (hne : k ≠ k') (l : List (N × V)) :
    hmGet k (l.map (fun p => if k' = p.1 then (k', v) else p)) = hmGet k l := by
  induction l with
  | nil => rfl
  | cons p rest ih =>
    simp only [List.map_cons, hmGet]
    by_cases h1 : k' = p.1
    · rw [if_pos h1]
      show (if k = k' then some v else _) = _
      rw [if_neg hne, if_neg (fun he => hne (he.trans h1.symm)), ih]
    · rw [if_neg h1]
      by_cases h2 : k = p.1
      · rw [if_pos h2, if_pos h2]
      · rw [if_neg h2, if_neg h2, ih]

theorem hmGet_replace {k k' : N} {v : V} {l : List (N × V)}
    (hs : (hmGet k' l).isSome = true) :
    hmGet k (l.map (fun p => if k' = p.1 then (k', v) else p)) =
      if k = k' then some v else hmGet k l := by
  by_cases hk : k = k'
  · subst hk
    rw [if_pos rfl]
    induction l with
    | nil => cases hs
    | cons p rest ih =>
      simp only [List.map_cons, hmGet]
      by_cases h1 : k = p.1
      · rw [if_pos h1]
        show (if k = k then _ else _) = _
        rw [if_pos rfl]
      · rw [if_neg h1]
        show (if k = p.1 then some p.2 else _) = _
        rw [if_neg h1]
        apply ih
        simp only [hmGet, if_neg h1] at hs
        exact hs
  · rw [if_neg hk]
    exact hmGet_replace_ne hk l

theorem hmGet_hmInsert (k k' : N) (v : V) (l : List (N × V)) :
    hmGet k (hmInsert k' v l) = if k = k' then some v else hmGet k l := by
  rw [hmInsert]
  by_cases hs : (hmGet k' l).isSome = true
  · rw [if_pos hs]
    exact hmGet_replace hs
  · rw [if_neg hs]
    rw [hmGet_append]
    cases hg : hmGet k l with
    | none =>
      by_cases hk : k = k'
      · rw [if_pos hk]
        simp [hmGet, hk]
      · rw [if_neg hk]
        simp [hmGet, hk]
    | some w =>
      have hk : ¬k = k' := by
        intro he
        rw [he] at hg
        rw [hg] at hs
        exact hs rfl
      rw [if_neg hk]

theorem hmInsert_of_isNone {k : N} {v : V} {l : List (N × V)}
    (h : hmGet k l = none) : hmInsert k v l = l ++ [(k, v)] := by
  rw [hmInsert, if_neg (by rw [h]; simp)]

theorem map_fst_hmInsert_of_isNone {k : N} {v : V} {l : List (N × V)}
    (h : hmGet k l = none) :
    (hmInsert k v l).map Prod.fst = l.map Prod.fst ++ [k] := by
  rw [hmInsert_of_isNone h, List.map_append]
  rfl

theorem mem_hmInsert_of_isNone {k : N} {v : V} {l : List (N × V)} {p : N × V}
    (h : hmGet k l = none) (hp : p ∈ l) : p ∈ hmInsert k v l := by
  rw [hmInsert_of_isNone h]
  exact List.mem_append_left _ hp

theorem mem_hmInsert_elim {k : N} {v : V} {l : List (N × V)} {p : N × V}
    (h : hmGet k l = none) (hp : p ∈ hmInsert k v l) : p = (k, v) ∨ p ∈ l := by
  rw [hmInsert_of_isNone h] at hp
  rcases List.mem_append.1 hp with h2 | h2
  · exact Or.inr h2
  · rcases List.mem_singleton.1 h2 with rfl
    exact Or.inl rfl

end HashMapLemmas

/-- Replacing a predicate's value from `true` to `false` at a single
element of a duplicate-free list shrinks the filtered length by one. -/
theorem length_filter_update {α : Type} [DecidableEq α] {f f2 : α → Bool} {x : α} :
    ∀ {l : List α}, l.Nodup → x ∈ l → f x = true → f2 x = false →
    (∀ y, y ≠ x → f y = f2 y) →
    (l.filter f).length = (l.filter f2).length + 1 := by
  intro l
  induction l with
  | nil => intro _ hx; cases hx
  | cons y ys ih =>
    intro hnd hx hfx hf2x hagree
    rw [List.nodup_cons] at hnd
    simp only [List.filter_cons]
    rcases List.mem_cons.1 hx with rfl | hmem
    · rw [hfx, hf2x]
      have : ys.filter f = ys.filter f2 := by
        apply List.filter_congr
        intro a ha
        exact hagree a (fun he => hnd.1 (he ▸ ha))
      simp [this]
    · have hy : y ≠ x := fun he => hnd.1 (he ▸ hmem)
      rw [← hagree y hy]
      cases hfy : f y with
      | false =>
        rw [if_neg (by simp), if_neg (by simp)]
        exact ih hnd.2 hmem hfx hf2x hagree
      | true =>
        rw [if_pos rfl, if_pos rfl]
        simp only [List.length_cons]
        rw [ih hnd.2 hmem hfx hf2x hagree]

/-! ## Claim C4: BFS -/

theorem is_connected_of_mem {g : Graph N E} {curr : N} {s : List (N × Option E)}
    (hget : emapGet curr g.edges = some s) {q : N × Option E} (hq : q ∈ s) :
    g.is_connected curr q.1 = true := by
  rw [Graph.is_connected, hget]
  rw [List.any_eq_true]
  exact ⟨q, hq, by simp⟩

/-- The number of registered nodes not yet present in a predecessor-style
map: the quantity BFS strictly decreases when it discovers a node. -/
def undiscovered (g : Graph N E) (pred : List (N × N)) : Nat :=
  (g.nodes.filter (fun n => (hmGet n pred).isNone)).length

/-- The invariant the BFS loop maintains: queue entries are discovered,
discovered nodes are registered and pairwise distinct, the source maps to
itself, and every non-source entry points along a real edge from an
already-discovered predecessor. -/
def BfsInv (g : Graph N E) (src : N) (q : List N) (pred : List (N × N)) : Prop :=
  (∀ x ∈ q, x ∈ pred.map Prod.fst) ∧
  (∀ k ∈ pred.map Prod.fst, k ∈ g.nodes) ∧
  (pred.map Prod.fst).Nodup ∧
  hmGet src pred = some src ∧
  (∀ p ∈ pred, p.1 ≠ src →
    g.is_connected p.2 p.1 = true ∧ p.2 ∈ pred.map Prod.fst)

theorem bfsScan_inv {g : Graph N E} (hwf : g.WF) {src curr : N}
    {s0 : List (N × Option E)} (hget : emapGet curr g.edges = some s0) :
    ∀ (s : List (N × Option E)), (∀ d ∈ s, d ∈ s0) →
    ∀ (pred : List (N × N)) (q : List N),
      BfsInv g src q pred → curr ∈ pred.map Prod.fst →
      BfsInv g src (bfsScan curr s pred q).2 (bfsScan curr s pred q).1 ∧
      curr ∈ (bfsScan curr s pred q).1.map Prod.fst ∧
      (bfsScan curr s pred q).2.length + undiscovered g (bfsScan curr s pred q).1 =
        q.length + undiscovered g pred := by
  intro s
  induction s with
  | nil =>
    intro _ pred q hinv hcurr
    exact ⟨hinv, hcurr, rfl⟩
  | cons d srest ih =>
    intro hsub pred q hinv hcurr
    have hstep : bfsScan curr (d :: srest) pred q =
        bfsScan curr srest
          (if (hmGet d.1 pred).isNone then hmInsert d.1 curr pred else pred)
          (if (hmGet d.1 pred).isNone then q ++ [d.1] else q) := by
      rw [bfsScan, bfsScan, List.foldl_cons]
      by_cases hg : (hmGet d.1 pred).isNone
      · rw [if_pos hg, if_pos hg, if_pos hg]
      · rw [if_neg hg, if_neg hg, if_neg hg]
    rw [hstep]
    by_cases hg : (hmGet d.1 pred).isNone = true
    · rw [if_pos hg, if_pos hg]
      have hnone : hmGet d.1 pred = none := Option.eq_none_of_isNone hg
      have hdn : d.1 ∈ g.nodes :=
        hwf.dst_of_get hget d (hsub d (List.mem_cons_self _ _))
      have hdnew : d.1 ∉ pred.map Prod.fst := by
        intro hmem
        rw [← hmGet_isSome_iff] at hmem
        rw [hnone] at hmem
        cases hmem
      have hkeys : (hmInsert d.1 curr pred).map Prod.fst =
          pred.map Prod.fst ++ [d.1] := map_fst_hmInsert_of_isNone hnone
      have hsrc_ne : src ≠ d.1 := by
        intro he
        apply hdnew
        rw [← he, ← hmGet_isSome_iff, hinv.2.2.2.1]
        rfl
      have hinv1 : BfsInv g src (q ++ [d.1]) (hmInsert d.1 curr pred) := by
        refine ⟨?_, ?_, ?_, ?_, ?_⟩
        · intro x hx
          rw [hkeys]
          rcases List.mem_append.1 hx with hx2 | hx2
          · exact List.mem_append_left _ (hinv.1 x hx2)
          · exact List.mem_append_right _ hx2
        · intro k hk
          rw [hkeys] at hk
          rcases List.mem_append.1 hk with hk2 | hk2
          · exact hinv.2.1 k hk2
          · rcases List.mem_singleton.1 hk2 with rfl
            exact hdn
        · rw [hkeys, List.nodup_append]
          refine ⟨hinv.2.2.1, List.nodup_singleton _, ?_⟩
          intro a ha hb
          rcases List.mem_singleton.1 hb with rfl
          exact hdnew ha
        · rw [hmGet_hmInsert, if_neg hsrc_ne]
          exact hinv.2.2.2.1
        · intro p hp hpne
          rcases mem_hmInsert_elim hnone hp with rfl | hp2
          · refine ⟨is_connected_of_mem hget (hsub d (List.mem_cons_self _ _)), ?_⟩
            rw [hkeys]
            exact List.mem_append_left _ hcurr
          · obtain ⟨hc, hk⟩ := hinv.2.2.2.2 p hp2 hpne
            refine ⟨hc, ?_⟩
            rw [hkeys]
            exact List.mem_append_left _ hk
      have hcurr1 : curr ∈ (hmInsert d.1 curr pred).map Prod.fst := by
        rw [hkeys]
        exact List.mem_append_left _ hcurr
      have hmeasure : undiscovered g pred =
          undiscovered g (hmInsert d.1 curr pred) + 1 := by
        apply length_filter_update hwf.1.nodup hdn
        · rw [hnone]
          rfl
        · rw [hmGet_hmInsert, if_pos rfl]
          rfl
        · intro y hy
          rw [hmGet_hmInsert, if_neg hy]
      obtain ⟨ha, hb, hc⟩ := ih
        (fun d2 hd2 => hsub d2 (List.mem_cons_of_mem _ hd2)) _ _ hinv1 hcurr1
      refine ⟨ha, hb, ?_⟩
      rw [hc, List.length_append]
      simp only [List.length_singleton]
      omega
    · rw [if_neg hg, if_neg hg]
      exact ih (fun d2 hd2 => hsub d2 (List.mem_cons_of_mem _ hd2)) _ _ hinv hcurr

theorem bfsLoop_props {g : Graph N E} (hwf : g.WF) {src : N} :
    ∀ (fuel : Nat) (q : List N) (pred : List (N × N)) r,
    BfsInv g src q pred → bfsLoop g fuel q pred = some r →
    ∃ m, r = Except.ok m ∧ BfsInv g src [] m := by
  intro fuel
  induction fuel with
  | zero =>
    intro q pred r _ h
    cases h
  | succ fuel ih =>
    intro q pred r hinv h
    cases q with
    | nil =>
      rw [bfsLoop] at h
      rcases Option.some_inj.1 h with rfl
      exact ⟨pred, rfl, ⟨fun x hx => absurd hx (List.not_mem_nil x), hinv.2.1,
        hinv.2.2.1, hinv.2.2.2.1, hinv.2.2.2.2⟩⟩
    | cons curr rest =>
      have hcurrk : curr ∈ pred.map Prod.fst :=
        hinv.1 curr (List.mem_cons_self _ _)
      have hcurrn : curr ∈ g.nodes := hinv.2.1 curr hcurrk
      cases hget : emapGet curr g.edges with
      | none =>
        have h2 := hwf.get_isSome hcurrn
        rw [hget] at h2
        cases h2
      | some s =>
        rw [bfsLoop, hget] at h
        have hrest : BfsInv g src rest pred :=
          ⟨fun x hx => hinv.1 x (List.mem_cons_of_mem _ hx), hinv.2.1,
            hinv.2.2.1, hinv.2.2.2.1, hinv.2.2.2.2⟩
        obtain ⟨ha, -, -⟩ :=
          bfsScan_inv hwf hget s (fun d hd => hd) pred rest hrest hcurrk
        exact ih _ _ r ha h

theorem bfsLoop_some {g : Graph N E} (hwf : g.WF) {src : N} :
    ∀ (fuel : Nat) (q : List N) (pred : List (N × N)),
    BfsInv g src q pred → q.length + undiscovered g pred + 1 ≤ fuel →
    (bfsLoop g fuel q pred).isSome = true := by
  intro fuel
  induction fuel with
  | zero =>
    intro q pred _ hf
    omega
  | succ fuel ih =>
    intro q pred hinv hf
    cases q with
    | nil => rfl
    | cons curr rest =>
      have hcurrk : curr ∈ pred.map Prod.fst :=
        hinv.1 curr (List.mem_cons_self _ _)
      have hcurrn : curr ∈ g.nodes := hinv.2.1 curr hcurrk
      cases hget : emapGet curr g.edges with
      | none =>
        have h2 := hwf.get_isSome hcurrn
        rw [hget] at h2
        cases h2
      | some s =>
        rw [bfsLoop, hget]
        have hrest : BfsInv g src rest pred :=
          ⟨fun x hx => hinv.1 x (List.mem_cons_of_mem _ hx), hinv.2.1,
            hinv.2.2.1, hinv.2.2.2.1, hinv.2.2.2.2⟩
        obtain ⟨ha, -, hc⟩ :=
          bfsScan_inv hwf hget s (fun d hd => hd) pred rest hrest hcurrk
        apply ih _ _ ha
        simp only [List.length_cons] at hf
        omega

theorem bfs_initial_inv {g : Graph N E} {src : N} (hsrc : src ∈ g.nodes) :
    BfsInv g src [src] [(src, src)] := by
  refine ⟨?_, ?_, ?_, ?_, ?_⟩
  · intro x hx
    rcases List.mem_singleton.1 hx with rfl
    simp
  · intro k hk
    simp only [List.map_cons, List.map_nil, List.mem_singleton] at hk
    rw [hk]
    exact hsrc
  · simp
  · simp [hmGet]
  · intro p hp hne
    rcases List.mem_singleton.1 hp with rfl
    exact absurd rfl hne

/-- The graph of the claim's concrete BFS example: nodes `{1, 2, 3, 5}`
and edges `{1→2, 1→3, 2→5, 5→5}`, built through the mutation API. -/
def bfsExampleGraph : Graph Nat Nat :=
  ((((((((Graph.new.add_node 1).2.add_node 2).2.add_node 3).2.add_node
    5).2.add_edge 1 2 none).2.add_edge 1 3 none).2.add_edge 2 5
    none).2.add_edge 5 5 none).2

/-- C4: for a registered source, `bfs` returns `Ok` with a predecessor map
in which the source maps to itself, each node appears at most once, and
every other entry records a real edge from an already-discovered node;
`bfs` of an unregistered source returns the `NodeNotFound` error; on the
graph `{1→2, 1→3, 2→5, 5→5}`, `bfs(1)` yields a 4-entry map with
`pred[1]=1`, `pred[2]=1`, `pred[3]=1`, `pred[5]=2`. -/
theorem claim_C4_bfs (g : Graph N E) (hwf : g.WF) (src : N) :
    (g.is_node src = false → ∀ fuel,
      g.bfs src fuel = some (Except.error (GraphError.NodeNotFound src))) ∧
    (g.is_node src = true →
      (∀ fuel r, g.bfs src fuel = some r →
        ∃ m, r = Except.ok m ∧
          hmGet src m = some src ∧
          (m.map Prod.fst).Nodup ∧
          ∀ p ∈ m, p.1 ≠ src →
            g.is_connected p.2 p.1 = true ∧ p.2 ∈ m.map Prod.fst) ∧
      (g.bfs src (g.num_nodes + 2)).isSome = true) ∧
    (bfsExampleGraph.bfs 1 10 =
      some (Except.ok [(1, 1), (2, 1), (3, 1), (5, 2)]) ∧
     ∀ fuel, bfsExampleGraph.bfs 7 fuel =
      some (Except.error (GraphError.NodeNotFound 7))) := by
  refine ⟨?_, ?_, by decide, ?_⟩
  · intro hsrc fuel
    rw [Graph.bfs, if_neg (by simp [hsrc])]
  · intro hsrc
    constructor
    · intro fuel r h
      rw [Graph.bfs, if_pos hsrc] at h
      obtain ⟨m, rfl, hinv⟩ :=
        bfsLoop_props hwf fuel [src] [(src, src)]
          r (bfs_initial_inv ((is_node_iff g src).1 hsrc)) h
      exact ⟨m, rfl, hinv.2.2.2.1, hinv.2.2.1, hinv.2.2.2.2⟩
    · rw [Graph.bfs, if_pos hsrc]
      apply bfsLoop_some hwf _ _ _ (bfs_initial_inv ((is_node_iff g src).1 hsrc))
      have := List.length_filter_le
        (fun n => (hmGet n [(src, src)]).isNone) g.nodes
      show 1 + undiscovered g [(src, src)] + 1 ≤ g.nodes.length + 2
      rw [undiscovered]
      omega
  · intro fuel
    cases fuel with
    | zero =>
      rw [Graph.bfs, if_neg (by decide)]
    | succ fuel =>
      rw [Graph.bfs, if_neg (by decide)]

theorem claim_C4_bfs_witness :
    bfsExampleGraph.WF ∧
    (bfsExampleGraph.bfs 1 (bfsExampleGraph.num_nodes + 2)).isSome = true :=
  ⟨by decide, ((claim_C4_bfs bfsExampleGraph (by decide) 1).2.1 (by decide)).2⟩

/-! ## Claim C9: DFS -/

/-- Reachability along the graph's directed edges, the specification's
"set of nodes reachable from the source". -/
def Reach (g : Graph N E) (src x : N) : Prop :=
  Relation.ReflTransGen (fun a b => g.is_connected a b = true) src x

theorem is_connected_elim {g : Graph N E} {curr d : N} {s : List (N × Option E)}
    (hget : emapGet curr g.edges = some s)
    (h : g.is_connected curr d = true) : ∃ p ∈ s, p.1 = d := by
  rw [Graph.is_connected, hget, List.any_eq_true] at h
  obtain ⟨p, hp, hd⟩ := h
  exact ⟨p, hp, by simpa using hd⟩

/-- One pass of the DFS `for` loop pushes exactly the not-yet-visited
destinations, in front of the existing stack. -/
theorem dfsScan_shape (visited : List N) :
    ∀ (s : List (N × Option E)) (stack : List N),
    ∃ newOnes : List N,
      dfsScan s visited stack = newOnes ++ stack ∧
      newOnes.length ≤ s.length ∧
      (∀ x ∈ newOnes, (∃ p ∈ s, x = p.1) ∧ x ∉ visited) ∧
      (∀ p ∈ s, p.1 ∈ visited ∨ p.1 ∈ newOnes) := by
  intro s
  induction s with
  | nil =>
    intro stack
    exact ⟨[], rfl, by simp, by simp, by simp⟩
  | cons d srest ih =>
    intro stack
    have hstep : dfsScan (d :: srest) visited stack =
        dfsScan srest visited
          (if decide (d.1 ∈ visited) then stack else d.1 :: stack) := by
      rw [dfsScan, dfsScan, List.foldl_cons]
    rw [hstep]
    by_cases hd : d.1 ∈ visited
    · rw [if_pos (by simpa using hd)]
      obtain ⟨newOnes, h1, h2, h3, h4⟩ := ih stack
      refine ⟨newOnes, h1, Nat.le_succ_of_le h2, ?_, ?_⟩
      · intro x hx
        obtain ⟨⟨p, hp, he⟩, hnv⟩ := h3 x hx
        exact ⟨⟨p, List.mem_cons_of_mem _ hp, he⟩, hnv⟩
      · intro p hp
        rcases List.mem_cons.1 hp with rfl | hp2
        · exact Or.inl hd
        · exact h4 p hp2
    · rw [if_neg (by simpa using hd)]
      obtain ⟨newOnes, h1, h2, h3, h4⟩ := ih (d.1 :: stack)
      refine ⟨newOnes ++ [d.1], by rw [h1]; simp, ?_, ?_, ?_⟩
      · simp only [List.length_append, List.length_cons, List.length_nil]
        omega
      · intro x hx
        rcases List.mem_append.1 hx with hx2 | hx2
        · obtain ⟨⟨p, hp, he⟩, hnv⟩ := h3 x hx2
          exact ⟨⟨p, List.mem_cons_of_mem _ hp, he⟩, hnv⟩
        · rcases List.mem_singleton.1 hx2 with rfl
          exact ⟨⟨d, List.mem_cons_self _ _, rfl⟩, hd⟩
      · intro p hp
        rcases List.mem_cons.1 hp with rfl | hp2
        · exact Or.inr (List.mem_append_right _ (List.mem_singleton.2 rfl))
        · rcases h4 p hp2 with h5 | h5
          · exact Or.inl h5
          · exact Or.inr (List.mem_append_left _ h5)

/-- The invariant the DFS loop maintains: stack and visited entries are
registered and reachable from the source, visited is a sorted set, the
source is accounted for, visited nodes' successors are visited or
stacked, and (the LIFO property) a visited node still on the stack has
all its unvisited successors above it. -/
def DfsInv (g : Graph N E) (src : N) (stack visited : List N) : Prop :=
  (∀ x ∈ stack, x ∈ g.nodes ∧ Reach g src x) ∧
  (∀ v ∈ visited, v ∈ g.nodes ∧ Reach g src v) ∧
  NodesOrd visited ∧
  (src ∈ visited ∨ src ∈ stack) ∧
  (∀ v ∈ visited, ∀ d, g.is_connected v d = true → d ∈ visited ∨ d ∈ stack) ∧
  (∀ pre x post, stack = pre ++ x :: post → x ∈ visited →
    ∀ d, g.is_connected x d = true → d ∈ visited ∨ d ∈ pre)

/-- The number of registered nodes not yet visited. -/
def unvisited (g : Graph N E) (visited : List N) : Nat :=
  (g.nodes.filter (fun n => decide (n ∉ visited))).length

theorem append_split {α : Type} {x : α} :
    ∀ {l1 : List α} {l2 pre post : List α}, l1 ++ l2 = pre ++ x :: post →
    x ∈ l1 ∨ ∃ pre2, pre = l1 ++ pre2 ∧ l2 = pre2 ++ x :: post := by
  intro l1
  induction l1 with
  | nil =>
    intro l2 pre post h
    exact Or.inr ⟨pre, rfl, h⟩
  | cons a l1 ih =>
    intro l2 pre post h
    cases pre with
    | nil =>
      simp only [List.nil_append, List.cons_append] at h
      rcases List.cons.injEq _ _ _ _ ▸ h with ⟨rfl, -⟩
      exact Or.inl (List.mem_cons_self _ _)
    | cons b pre2 =>
      simp only [List.cons_append] at h
      have h1 : a = b := (List.cons.injEq _ _ _ _ ▸ h).1
      have h2 : l1 ++ l2 = pre2 ++ x :: post := (List.cons.injEq _ _ _ _ ▸ h).2
      rcases ih h2 with hx | ⟨pre3, hp1, hp2⟩
      · exact Or.inl (List.mem_cons_of_mem _ hx)
      · exact Or.inr ⟨pre3, by rw [hp1, h1, List.cons_append], hp2⟩

theorem mem_le_sum {l : List Nat} {a : Nat} (h : a ∈ l) : a ≤ l.sum := by
  induction l with
  | nil => cases h
  | cons b bs ih =>
    rcases List.mem_cons.1 h with rfl | h2
    · exact Nat.le_add_right _ _
    · exact Nat.le_trans (ih h2) (Nat.le_add_left _ _)

theorem eset_length_le_num_edges {g : Graph N E} {curr : N}
    {s : List (N × Option E)} (hget : emapGet curr g.edges = some s) :
    s.length ≤ g.num_edges :=
  mem_le_sum (List.mem_map.2 ⟨(curr, s), emapGet_mem hget, rfl⟩)

/-- One iteration of the DFS loop preserves the invariant and strictly
decreases the termination measure. -/
theorem dfs_step {g : Graph N E} (hwf : g.WF) {src curr : N}
    {rest visited : List N} (hinv : DfsInv g src (curr :: rest) visited)
    {s : List (N × Option E)} (hget : emapGet curr g.edges = some s) :
    DfsInv g src (dfsScan s (nsetInsert curr visited) rest)
      (nsetInsert curr visited) ∧
    (g.num_edges + 1) * unvisited g (nsetInsert curr visited) +
        (dfsScan s (nsetInsert curr visited) rest).length + 1 ≤
      (g.num_edges + 1) * unvisited g visited + (curr :: rest).length := by
  have hcurrN : curr ∈ g.nodes := (hinv.1 curr (List.mem_cons_self _ _)).1
  have hcurrR : Reach g src curr := (hinv.1 curr (List.mem_cons_self _ _)).2
  have hmemIns : ∀ y : N, y ∈ nsetInsert curr visited ↔ y = curr ∨ y ∈ visited :=
    fun y => mem_oinsert nltb curr y visited
  obtain ⟨newOnes, hsh1, hsh2, hsh3, hsh4⟩ :=
    dfsScan_shape (nsetInsert curr visited) s rest
  by_cases hv : curr ∈ visited
  · have hv1 : nsetInsert curr visited = visited :=
      oinsert_of_mem nltb nltb_irrefl (fun _ _ => nltb_asymm) curr hinv.2.2.1 hv
    have hall : ∀ p ∈ s, p.1 ∈ visited := by
      intro p hp
      rcases hinv.2.2.2.2.2 [] curr rest rfl hv p.1
          (is_connected_of_mem hget hp) with h | h
      · exact h
      · cases h
    have hnew_nil : newOnes = [] := by
      cases hno : newOnes with
      | nil => rfl
      | cons x xs =>
        exfalso
        obtain ⟨⟨p, hp, rfl⟩, hnv⟩ := hsh3 x (hno ▸ List.mem_cons_self x xs)
        rw [hv1] at hnv
        exact hnv (hall p hp)
    rw [hv1] at hsh1 ⊢
    rw [hnew_nil] at hsh1
    simp only [List.nil_append] at hsh1
    rw [hsh1]
    constructor
    · refine ⟨fun x hx => hinv.1 x (List.mem_cons_of_mem _ hx), hinv.2.1,
        hinv.2.2.1, ?_, ?_, ?_⟩
      · rcases hinv.2.2.2.1 with h | h
        · exact Or.inl h
        · rcases List.mem_cons.1 h with rfl | h2
          · exact Or.inl hv
          · exact Or.inr h2
      · intro v hvm d hd
        rcases hinv.2.2.2.2.1 v hvm d hd with h | h
        · exact Or.inl h
        · rcases List.mem_cons.1 h with rfl | h2
          · exact Or.inl hv
          · exact Or.inr h2
      · intro pre x post hdec hx d hd
        rcases hinv.2.2.2.2.2 (curr :: pre) x post (by rw [List.cons_append, hdec])
            hx d hd with h | h
        · exact Or.inl h
        · rcases List.mem_cons.1 h with rfl | h2
          · exact Or.inl hv
          · exact Or.inr h2
    · simp only [List.length_cons]
      omega
  · have hcv1 : curr ∈ nsetInsert curr visited := (hmemIns curr).2 (Or.inl rfl)
    have hsub1 : ∀ y ∈ visited, y ∈ nsetInsert curr visited :=
      fun y hy => (hmemIns y).2 (Or.inr hy)
    constructor
    · refine ⟨?_, ?_, nodesOrd_nsetInsert hinv.2.2.1 curr, ?_, ?_, ?_⟩
      · intro x hx
        rw [hsh1] at hx
        rcases List.mem_append.1 hx with hx2 | hx2
        · obtain ⟨⟨p, hp, rfl⟩, -⟩ := hsh3 x hx2
          exact ⟨hwf.dst_of_get hget p hp,
            hcurrR.tail (is_connected_of_mem hget hp)⟩
        · exact hinv.1 x (List.mem_cons_of_mem _ hx2)
      · intro v hvm
        rcases (hmemIns v).1 hvm with rfl | h2
        · exact ⟨hcurrN, hcurrR⟩
        · exact hinv.2.1 v h2
      · rcases hinv.2.2.2.1 with h | h
        · exact Or.inl (hsub1 src h)
        · rcases List.mem_cons.1 h with rfl | h2
          · exact Or.inl hcv1
          · refine Or.inr ?_
            rw [hsh1]
            exact List.mem_append_right _ h2
      · intro v hvm d hd
        rcases (hmemIns v).1 hvm with rfl | h2
        · obtain ⟨p, hp, rfl⟩ := is_connected_elim hget hd
          rcases hsh4 p hp with h3 | h3
          · exact Or.inl h3
          · refine Or.inr ?_
            rw [hsh1]
            exact List.mem_append_left _ h3
        · rcases hinv.2.2.2.2.1 v h2 d hd with h3 | h3
          · exact Or.inl (hsub1 d h3)
          · rcases List.mem_cons.1 h3 with rfl | h4
            · exact Or.inl hcv1
            · refine Or.inr ?_
              rw [hsh1]
              exact List.mem_append_right _ h4
      · intro pre x post hdec hx d hd
        rw [hsh1] at hdec
        rcases append_split hdec with hxn | ⟨pre2, hp1, hp2⟩
        · obtain ⟨-, hnv⟩ := hsh3 x hxn
          exact absurd hx hnv
        · rcases (hmemIns x).1 hx with rfl | hxv
          · obtain ⟨p, hp, rfl⟩ := is_connected_elim hget hd
            rcases hsh4 p hp with h3 | h3
            · exact Or.inl h3
            · refine Or.inr ?_
              rw [hp1]
              exact List.mem_append_left _ h3
          · rcases hinv.2.2.2.2.2 (curr :: pre2) x post
                (by rw [List.cons_append, hp2]) hxv d hd with h3 | h3
            · exact Or.inl (hsub1 d h3)
            · rcases List.mem_cons.1 h3 with rfl | h4
              · exact Or.inl hcv1
              · refine Or.inr ?_
                rw [hp1]
                exact List.mem_append_right _ h4
    · have hvu : unvisited g visited =
          unvisited g (nsetInsert curr visited) + 1 := by
        apply length_filter_update hwf.1.nodup hcurrN
        · simp [hv]
        · simp [hcv1]
        · intro y hy
          apply decide_eq_decide.2
          rw [hmemIns y]
          constructor
          · intro h h2
            rcases h2 with rfl | h3
            · exact hy rfl
            · exact h h3
          · intro h h2
            exact h (Or.inr h2)
      have hlen : (dfsScan s (nsetInsert curr visited) rest).length =
          newOnes.length + rest.length := by
        rw [hsh1, List.length_append]
      have hse : s.length ≤ g.num_edges := eset_length_le_num_edges hget
      rw [hvu, Nat.mul_succ, hlen]
      simp only [List.length_cons]
      omega

theorem dfsLoop_props {g : Graph N E} (hwf : g.WF) {src : N} :
    ∀ (fuel : Nat) (stack visited : List N) r,
    DfsInv g src stack visited → dfsLoop g fuel stack visited = some r →
    ∃ vis, r = Except.ok vis ∧ ∀ x, x ∈ vis ↔ Reach g src x := by
  intro fuel
  induction fuel with
  | zero =>
    intro stack visited r _ h
    cases h
  | succ fuel ih =>
    intro stack visited r hinv h
    cases stack with
    | nil =>
      rw [dfsLoop] at h
      rcases Option.some_inj.1 h with rfl
      refine ⟨visited, rfl, ?_⟩
      intro x
      constructor
      · intro hx
        exact (hinv.2.1 x hx).2
      · intro hr
        have hsrc : src ∈ visited := by
          rcases hinv.2.2.2.1 with h2 | h2
          · exact h2
          · cases h2
        induction hr with
        | refl => exact hsrc
        | tail h1 h2 ih2 =>
          rcases hinv.2.2.2.2.1 _ ih2 _ h2 with h3 | h3
          · exact h3
          · cases h3
    | cons curr rest =>
      have hcurrn : curr ∈ g.nodes := (hinv.1 curr (List.mem_cons_self _ _)).1
      cases hget : emapGet curr g.edges with
      | none =>
        have h2 := hwf.get_isSome hcurrn
        rw [hget] at h2
        cases h2
      | some s =>
        rw [dfsLoop, hget] at h
        exact ih _ _ r (dfs_step hwf hinv hget).1 h

theorem dfsLoop_some {g : Graph N E} (hwf : g.WF) {src : N} :
    ∀ (fuel : Nat) (stack visited : List N),
    DfsInv g src stack visited →
    (g.num_edges + 1) * unvisited g visited + stack.length + 1 ≤ fuel →
    (dfsLoop g fuel stack visited).isSome = true := by
  intro fuel
  induction fuel with
  | zero =>
    intro stack visited _ hf
    omega
  | succ fuel ih =>
    intro stack visited hinv hf
    cases stack with
    | nil => rfl
    | cons curr rest =>
      have hcurrn : curr ∈ g.nodes := (hinv.1 curr (List.mem_cons_self _ _)).1
      cases hget : emapGet curr g.edges with
      | none =>
        have h2 := hwf.get_isSome hcurrn
        rw [hget] at h2
        cases h2
      | some s =>
        rw [dfsLoop, hget]
        obtain ⟨hinv2, hm⟩ := dfs_step hwf hinv hget
        apply ih _ _ hinv2
        omega

/-- The graph of the claim's concrete DFS example: nodes `{1, 2, 3}` and
edges `{1→2, 2→3, 3→1}`, built through the mutation API. -/
def dfsExampleGraph : Graph Nat Nat :=
  ((((((Graph.new.add_node 1).2.add_node 2).2.add_node 3).2.add_edge 1 2
    none).2.add_edge 2 3 none).2.add_edge 3 1 none).2

/-- C9: for a registered source, `dfs` returns `Ok` with exactly the set
of nodes reachable from the source (the source included) — an
order-independent characterization; `dfs` of an unregistered source
returns a `NodeNotFound` error; on the graph `{1→2, 2→3, 3→1}`, `dfs(1)`
returns exactly `{1, 2, 3}`. -/
theorem claim_C9_dfs (g : Graph N E) (hwf : g.WF) (src : N) :
    (g.is_node src = false → ∀ fuel, 1 ≤ fuel →
      g.dfs src fuel = some (Except.error (GraphError.NodeNotFound src))) ∧
    (g.is_node src = true →
      (∀ fuel r, g.dfs src fuel = some r →
        ∃ vis, r = Except.ok vis ∧ ∀ x, x ∈ vis ↔ Reach g src x) ∧
      (g.dfs src ((g.num_edges + 1) * g.num_nodes + 2)).isSome = true) ∧
    (dfsExampleGraph.dfs 1 10 = some (Except.ok [1, 2, 3]) ∧
     ∀ fuel, 1 ≤ fuel → dfsExampleGraph.dfs 7 fuel =
      some (Except.error (GraphError.NodeNotFound 7))) := by
  have hstart : ∀ (hs : src ∈ g.nodes), DfsInv g src [src] [] := by
    intro hs
    refine ⟨?_, ?_, List.Pairwise.nil, Or.inr (List.mem_singleton.2 rfl), ?_, ?_⟩
    · intro x hx
      rcases List.mem_singleton.1 hx with rfl
      exact ⟨hs, Relation.ReflTransGen.refl⟩
    · intro v hv
      cases hv
    · intro v hv
      cases hv
    · intro pre x post hdec hx
      cases hx
  refine ⟨?_, ?_, ?_, ?_⟩
  · intro hsrc fuel hfuel
    have hnone : emapGet src g.edges = none := by
      apply emapGet_eq_none_of_not_mem
      rw [hwf.2.1]
      intro hmem
      rw [(is_node_iff g src).2 hmem] at hsrc
      cases hsrc
    cases fuel with
    | zero => omega
    | succ fuel =>
      rw [Graph.dfs, dfsLoop, hnone]
  · intro hsrc
    constructor
    · intro fuel r h
      exact dfsLoop_props hwf fuel [src] [] r
        (hstart ((is_node_iff g src).1 hsrc)) h
    · rw [Graph.dfs]
      apply dfsLoop_some hwf _ _ _ (hstart ((is_node_iff g src).1 hsrc))
      have h1 : unvisited g [] ≤ g.num_nodes := by
        rw [unvisited]
        exact List.length_filter_le _ _
      have h2 : (g.num_edges + 1) * unvisited g [] ≤
          (g.num_edges + 1) * g.num_nodes :=
        Nat.mul_le_mul_left _ h1
      simp only [List.length_cons, List.length_nil]
      omega
  · decide
  · intro fuel hfuel
    cases fuel with
    | zero => omega
    | succ fuel =>
      rw [Graph.dfs, dfsLoop]
      rfl

theorem claim_C9_dfs_witness :
    dfsExampleGraph.WF ∧
    (dfsExampleGraph.dfs 1
      ((dfsExampleGraph.num_edges + 1) * dfsExampleGraph.num_nodes + 2)).isSome =
      true :=
  ⟨by decide, ((claim_C9_dfs dfsExampleGraph (by decide) 1).2.1 (by decide)).2⟩

/-! ## Claim C3: Dijkstra -/

theorem heapMax_mem {pq : List (E × N)} {m : E × N} (h : heapMax pq = some m) :
    m ∈ pq := by
  induction pq generalizing m with
  | nil => cases h
  | cons x rest ih =>
    rw [heapMax] at h
    cases hr : heapMax rest with
    | none =>
      rw [hr] at h
      rcases Option.some_inj.1 h with rfl
      exact List.mem_cons_self _ _
    | some m2 =>
      rw [hr] at h
      rcases Option.some_inj.1 h with rfl
      by_cases hlt : heapLt x m2 = true
      · rw [if_pos hlt]
        exact List.mem_cons_of_mem _ (ih hr)
      · rw [if_neg hlt]
        exact List.mem_cons_self _ _

theorem pqPop_none {pq : List (E × N)} (h : pqPop pq = none) : pq = [] := by
  cases pq with
  | nil => rfl
  | cons x rest =>
    rw [pqPop] at h
    cases hr : heapMax (x :: rest) with
    | none =>
      rw [heapMax] at hr
      cases h2 : heapMax rest <;> rw [h2] at hr <;> cases hr
    | some m =>
      rw [hr] at h
      cases h

theorem pqPop_some {pq : List (E × N)} {m : E × N} {rest : List (E × N)}
    (h : pqPop pq = some (m, rest)) : m ∈ pq ∧ rest = oremove m pq := by
  rw [pqPop] at h
  cases hr : heapMax pq with
  | none =>
    rw [hr] at h
    cases h
  | some m2 =>
    rw [hr] at h
    rcases Option.some_inj.1 h with he
    have h1 : m2 = m := congrArg Prod.fst he
    have h2 : oremove m2 pq = rest := congrArg Prod.snd he
    rw [h1] at h2
    exact ⟨h1 ▸ heapMax_mem hr, h2.symm⟩

theorem mem_hmInsert_elim2 {V : Type} {k : N} {v : V} {l : List (N × V)}
    {p : N × V} (hp : p ∈ hmInsert k v l) : p = (k, v) ∨ p ∈ l := by
  rw [hmInsert] at hp
  by_cases hs : (hmGet k l).isSome = true
  · rw [if_pos hs] at hp
    rcases List.mem_map.1 hp with ⟨q, hq, rfl⟩
    by_cases hk : k = q.1
    · rw [if_pos hk]
      exact Or.inl rfl
    · rw [if_neg hk]
      exact Or.inr hq
  · rw [if_neg hs] at hp
    rcases List.mem_append.1 hp with h2 | h2
    · exact Or.inr h2
    · rcases List.mem_singleton.1 h2 with rfl
      exact Or.inl rfl

theorem map_fst_hmInsert_of_isSome {V : Type} {k : N} {v : V} {l : List (N × V)}
    (hs : (hmGet k l).isSome = true) :
    (hmInsert k v l).map Prod.fst = l.map Prod.fst := by
  rw [hmInsert, if_pos hs, List.map_map]
  apply List.map_congr_left
  intro p hp
  by_cases hk : k = p.1
  · show (if k = p.1 then (k, v) else p).1 = p.1
    rw [if_pos hk]
    exact hk
  · show (if k = p.1 then (k, v) else p).1 = p.1
    rw [if_neg hk]

/-- `e ∈ pq` is a live witness for key `k`: a pending queue entry carrying
exactly the currently recorded distance. -/
def DjWit (pq : List (E × N)) (dist : List (N × E)) (k : N) : Prop :=
  ∃ e ∈ pq, e.2 = k ∧ hmGet k dist = some e.1

/-- Key `u`'s outgoing edges have all been relaxed into the distance map. -/
def DjRight (g : Graph N E) (dist : List (N × E)) (u : N) : Prop :=
  ∀ s2, emapGet u g.edges = some s2 → ∀ p ∈ s2, p.1 ∈ dist.map Prod.fst

/-- The bookkeeping invariant of the Dijkstra loop, apart from the
pending-or-relaxed alternative. -/
def DjInvBase (g : Graph N E) (src : N) (pq : List (E × N)) (dist : List (N × E))
    (pred : List (N × Option N)) : Prop :=
  dist.map Prod.fst = pred.map Prod.fst ∧
  (dist.map Prod.fst).Nodup ∧
  src ∈ dist.map Prod.fst ∧
  (∀ k ∈ dist.map Prod.fst, k ∈ g.nodes ∧ Reach g src k) ∧
  (∀ e ∈ pq, e.2 ∈ dist.map Prod.fst) ∧
  (∀ p ∈ pred, p.2 = none → p.1 = src)

/-- Every key either has a live queue entry at its current distance or has
already had all its outgoing edges relaxed. -/
def DjF (g : Graph N E) (pq : List (E × N)) (dist : List (N × E)) : Prop :=
  ∀ u ∈ dist.map Prod.fst, DjWit pq dist u ∨ DjRight g dist u

theorem djikstraScan_cons [Add E] (u : N) (curr_dist dw : E) (p : N × Option E)
    (srest : List (N × Option E)) (pq : List (E × N)) (dist : List (N × E))
    (pred : List (N × Option N)) :
    djikstraScan u curr_dist dw (p :: srest) pq dist pred =
      if (match hmGet p.1 dist with
          | none => true
          | some dn =>
            decide ((match p.2 with | some x => x | none => dw) + curr_dist < dn)) then
        djikstraScan u curr_dist dw srest
          (((match p.2 with | some x => x | none => dw) + curr_dist, p.1) :: pq)
          (hmInsert p.1 ((match p.2 with | some x => x | none => dw) + curr_dist)
            dist)
          (hmInsert p.1 (some u) pred)
      else djikstraScan u curr_dist dw srest pq dist pred := by
  by_cases hb : (match hmGet p.1 dist with
      | none => true
      | some dn =>
        decide ((match p.2 with | some x => x | none => dw) + curr_dist < dn)) = true
  · rw [if_pos hb, djikstraScan, djikstraScan, List.foldl_cons]
    congr 1
    simp only [hb, if_true]
  · rw [if_neg hb, djikstraScan, djikstraScan, List.foldl_cons]
    congr 1
    simp only [Bool.not_eq_true] at hb
    simp only [hb]
    rfl

/-- One pass of the Dijkstra relaxation loop: the base invariant is
preserved, old queue entries and keys persist, a key's distance either has
a fresh queue witness or is untouched, and every scanned destination ends
up in the distance map. -/
theorem djikstraScan_inv [Add E] {g : Graph N E} (hwf : g.WF) {src u : N}
    {curr_dist dw : E} (hur : Reach g src u)
    {s0 : List (N × Option E)} (hget : emapGet u g.edges = some s0) :
    ∀ (s : List (N × Option E)), (∀ p ∈ s, p ∈ s0) →
    ∀ (pq : List (E × N)) (dist : List (N × E)) (pred : List (N × Option N)),
    DjInvBase g src pq dist pred →
    DjInvBase g src (djikstraScan u curr_dist dw s pq dist pred).1
      (djikstraScan u curr_dist dw s pq dist pred).2.1
      (djikstraScan u curr_dist dw s pq dist pred).2.2 ∧
    (∀ e ∈ pq, e ∈ (djikstraScan u curr_dist dw s pq dist pred).1) ∧
    (∀ k ∈ dist.map Prod.fst,
      k ∈ (djikstraScan u curr_dist dw s pq dist pred).2.1.map Prod.fst) ∧
    (∀ k, DjWit (djikstraScan u curr_dist dw s pq dist pred).1
        (djikstraScan u curr_dist dw s pq dist pred).2.1 k ∨
      hmGet k (djikstraScan u curr_dist dw s pq dist pred).2.1 = hmGet k dist) ∧
    (∀ p ∈ s, p.1 ∈ (djikstraScan u curr_dist dw s pq dist pred).2.1.map Prod.fst) := by
  intro s
  induction s with
  | nil =>
    intro _ pq dist pred hbase
    exact ⟨hbase, fun e he => he, fun k hk => hk, fun k => Or.inr rfl, by simp⟩
  | cons p srest ih =>
    intro hsub pq dist pred hbase
    rw [djikstraScan_cons]
    by_cases hb : (match hmGet p.1 dist with
        | none => true
        | some dn =>
          decide ((match p.2 with | some x => x | none => dw) + curr_dist < dn)) = true
    · rw [if_pos hb]
      have hpn : p.1 ∈ g.nodes :=
        hwf.dst_of_get hget p (hsub p (List.mem_cons_self _ _))
      have hpr : Reach g src p.1 :=
        hur.tail (is_connected_of_mem hget (hsub p (List.mem_cons_self _ _)))
      set nd := (match p.2 with | some x => x | none => dw) + curr_dist with hnd
      have hbase1 : DjInvBase g src ((nd, p.1) :: pq)
          (hmInsert p.1 nd dist) (hmInsert p.1 (some u) pred) := by
        obtain ⟨hA, hB, hC, hD, hE, hG⟩ := hbase
        by_cases hk : (hmGet p.1 dist).isSome = true
        · have hk2 : (hmGet p.1 pred).isSome = true := by
            rw [hmGet_isSome_iff] at hk ⊢
            rw [← hA]
            exact hk
          have hkeys : (hmInsert p.1 nd dist).map Prod.fst = dist.map Prod.fst :=
            map_fst_hmInsert_of_isSome hk
          have hkeys2 : (hmInsert p.1 (some u) pred).map Prod.fst =
              pred.map Prod.fst := map_fst_hmInsert_of_isSome hk2
          refine ⟨by rw [hkeys, hkeys2, hA], by rw [hkeys]; exact hB,
            by rw [hkeys]; exact hC, ?_, ?_, ?_⟩
          · intro k hkm
            rw [hkeys] at hkm
            exact hD k hkm
          · intro e he
            rw [hkeys]
            rcases List.mem_cons.1 he with rfl | h2
            · rw [← hmGet_isSome_iff]
              exact hk
            · exact hE e h2
          · intro q hq hqn
            rcases mem_hmInsert_elim2 hq with rfl | h2
            · cases hqn
            · exact hG q h2 hqn
        · have hnone : hmGet p.1 dist = none := by
            cases hx : hmGet p.1 dist
            · rfl
            · rw [hx] at hk
              exact absurd rfl hk
          have hnone2 : hmGet p.1 pred = none := by
            cases hx : hmGet p.1 pred
            · rfl
            · exfalso
              apply hk
              rw [hmGet_isSome_iff, hA, ← hmGet_isSome_iff, hx]
              rfl
          have hkeys : (hmInsert p.1 nd dist).map Prod.fst =
              dist.map Prod.fst ++ [p.1] := map_fst_hmInsert_of_isNone hnone
          have hkeys2 : (hmInsert p.1 (some u) pred).map Prod.fst =
              pred.map Prod.fst ++ [p.1] := map_fst_hmInsert_of_isNone hnone2
          have hnotin : p.1 ∉ dist.map Prod.fst := by
            rw [← hmGet_isSome_iff, hnone]
            simp
          refine ⟨by rw [hkeys, hkeys2, hA], ?_, ?_, ?_, ?_, ?_⟩
          · rw [hkeys, List.nodup_append]
            refine ⟨hB, List.nodup_singleton _, ?_⟩
            intro a ha hb2
            rcases List.mem_singleton.1 hb2 with rfl
            exact hnotin ha
          · rw [hkeys]
            exact List.mem_append_left _ hC
          · intro k hkm
            rw [hkeys] at hkm
            rcases List.mem_append.1 hkm with h2 | h2
            · exact hD k h2
            · rcases List.mem_singleton.1 h2 with rfl
              exact ⟨hpn, hpr⟩
          · intro e he
            rw [hkeys]
            rcases List.mem_cons.1 he with rfl | h2
            · exact List.mem_append_right _ (List.mem_singleton.2 rfl)
            · exact List.mem_append_left _ (hE e h2)
          · intro q hq hqn
            rcases mem_hmInsert_elim2 hq with rfl | h2
            · cases hqn
            · exact hG q h2 hqn
      obtain ⟨ja, jb, jc, jd, je⟩ :=
        ih (fun q hq => hsub q (List.mem_cons_of_mem _ hq)) _ _ _ hbase1
      have hkmono : ∀ k ∈ dist.map Prod.fst,
          k ∈ (hmInsert p.1 nd dist).map Prod.fst := by
        intro k hk
        rw [← hmGet_isSome_iff] at hk ⊢
        rw [hmGet_hmInsert]
        by_cases he : k = p.1
        · rw [if_pos he]
          rfl
        · rw [if_neg he]
          exact hk
      refine ⟨ja, ?_, ?_, ?_, ?_⟩
      · intro e he
        exact jb e (List.mem_cons_of_mem _ he)
      · intro k hk
        exact jc k (hkmono k hk)
      · intro k
        rcases jd k with h2 | h2
        · exact Or.inl h2
        · by_cases he : k = p.1
          · refine Or.inl ⟨(nd, p.1), jb _ (List.mem_cons_self _ _), he.symm, ?_⟩
            rw [h2, hmGet_hmInsert, if_pos he]
          · refine Or.inr ?_
            rw [h2, hmGet_hmInsert, if_neg he]
      · intro q hq
        rcases List.mem_cons.1 hq with rfl | h2
        · apply jc
          rw [← hmGet_isSome_iff, hmGet_hmInsert, if_pos rfl]
          rfl
        · exact je q h2
    · rw [if_neg hb]
      have hin : p.1 ∈ dist.map Prod.fst := by
        rw [← hmGet_isSome_iff]
        cases hx : hmGet p.1 dist with
        | none =>
          rw [hx] at hb
          exact absurd rfl hb
        | some dn => rfl
      obtain ⟨ja, jb, jc, jd, je⟩ :=
        ih (fun q hq => hsub q (List.mem_cons_of_mem _ hq)) _ _ _ hbase
      refine ⟨ja, jb, jc, jd, ?_⟩
      intro q hq
      rcases List.mem_cons.1 hq with rfl | h2
      · exact jc q.1 hin
      · exact je q h2

theorem djikstraLoop_props [Add E] {g : Graph N E} (hwf : g.WF) {src : N}
    {dw : E} :
    ∀ (fuel : Nat) (pq : List (E × N)) (dist : List (N × E))
      (pred : List (N × Option N)) r,
    DjInvBase g src pq dist pred → DjF g pq dist →
    djikstraLoop g dw fuel pq dist pred = some r →
    ∃ dist2 pred2, r = Except.ok (dist2, pred2) ∧
      dist2.map Prod.fst = pred2.map Prod.fst ∧
      (∀ k ∈ dist2.map Prod.fst, Reach g src k) ∧
      (∀ x, Reach g src x → x ∈ dist2.map Prod.fst) ∧
      (∀ p ∈ pred2, p.2 = none → p.1 = src) := by
  intro fuel
  induction fuel with
  | zero =>
    intro pq dist pred r _ _ h
    cases h
  | succ fuel ih =>
    intro pq dist pred r hbase hF h
    rw [djikstraLoop] at h
    cases hpop : pqPop pq with
    | none =>
      rw [hpop] at h
      rcases Option.some_inj.1 h with rfl
      have hnil : pq = [] := pqPop_none hpop
      have hclosed : ∀ u ∈ dist.map Prod.fst, DjRight g dist u := by
        intro u hu
        rcases hF u hu with ⟨e, he, -⟩ | h2
        · rw [hnil] at he
          cases he
        · exact h2
      refine ⟨dist, pred, rfl, hbase.1, fun k hk => (hbase.2.2.2.1 k hk).2,
        ?_, hbase.2.2.2.2.2⟩
      intro x hx
      induction hx with
      | refl => exact hbase.2.2.1
      | tail h1 h2 ih2 =>
        obtain ⟨hyn, -⟩ := hbase.2.2.2.1 _ ih2
        cases hgety : emapGet _ g.edges with
        | none =>
          have h3 := hwf.get_isSome hyn
          rw [hgety] at h3
          cases h3
        | some s2 =>
          obtain ⟨p, hp, rfl⟩ := is_connected_elim hgety h2
          exact hclosed _ ih2 s2 hgety p hp
    | some popped =>
      rcases popped with ⟨⟨v, u⟩, pq1⟩
      rw [hpop] at h
      obtain ⟨hmem, hrest⟩ := pqPop_some hpop
      have hu_key : u ∈ dist.map Prod.fst := hbase.2.2.2.2.1 (v, u) hmem
      have hbase1 : DjInvBase g src pq1 dist pred :=
        ⟨hbase.1, hbase.2.1, hbase.2.2.1, hbase.2.2.2.1,
          fun e he => hbase.2.2.2.2.1 e (mem_of_mem_oremove (hrest ▸ he)),
          hbase.2.2.2.2.2⟩
      cases hgd : hmGet u dist with
      | none =>
        exfalso
        rw [← hmGet_isSome_iff] at hu_key
        rw [hgd] at hu_key
        cases hu_key
      | some du =>
        simp only [hgd] at h
        by_cases hlt : du < v
        · rw [if_pos (decide_eq_true hlt)] at h
          have hF1 : DjF g pq1 dist := by
            intro k hk
            rcases hF k hk with ⟨e, he, he2, hge⟩ | h2
            · refine Or.inl ⟨e, ?_, he2, hge⟩
              rw [hrest]
              apply mem_oremove_of_ne ?_ he
              intro hee
              have huk : u = k := by rw [← he2, hee]
              have hv2 : hmGet k dist = some v := by rw [hge, hee]
              rw [← huk, hgd] at hv2
              rcases Option.some_inj.1 hv2 with he3
              rw [he3] at hlt
              exact lt_irrefl v hlt
            · exact Or.inr h2
          exact ih pq1 dist pred r hbase1 hF1 h
        · rw [if_neg (by simp [hlt])] at h
          obtain ⟨hun, hur⟩ := hbase.2.2.2.1 u hu_key
          cases hget : emapGet u g.edges with
          | none =>
            have h3 := hwf.get_isSome hun
            rw [hget] at h3
            cases h3
          | some s =>
            simp only [hget] at h
            obtain ⟨ja, jb, jc, jd, je⟩ := djikstraScan_inv hwf hur hget s
              (fun p hp => hp) pq1 dist pred hbase1
            have hF2 : DjF g (djikstraScan u v dw s pq1 dist pred).1
                (djikstraScan u v dw s pq1 dist pred).2.1 := by
              intro k hk
              by_cases hku : k = u
              · refine Or.inr ?_
                intro s2 hgs2
                rw [hku, hget] at hgs2
                rcases Option.some_inj.1 hgs2 with rfl
                exact je
              · by_cases hkold : k ∈ dist.map Prod.fst
                · rcases hF k hkold with ⟨e, he, he2, hge⟩ | h2
                  · rcases jd k with h3 | h3
                    · exact Or.inl h3
                    · refine Or.inl ⟨e, ?_, he2, ?_⟩
                      · apply jb
                        rw [hrest]
                        apply mem_oremove_of_ne ?_ he
                        intro hee
                        rw [hee] at he2
                        exact hku he2.symm
                      · rw [h3, hge]
                  · refine Or.inr ?_
                    intro s2 hgs2 p hp
                    exact jc p.1 (h2 s2 hgs2 p hp)
                · rcases jd k with h3 | h3
                  · exact Or.inl h3
                  · exfalso
                    rw [← hmGet_isSome_iff, h3] at hk
                    rw [← hmGet_isSome_iff] at hkold
                    exact hkold hk
            exact ih _ _ _ r ja hF2 h

/-- The classic 6-node weighted graph of the claim's concrete example,
with every edge added undirected. -/
def djikstraExampleGraph : Graph Nat Nat :=
  (([(0, 1, 14), (0, 2, 9), (0, 3, 7), (1, 4, 5), (2, 1, 4), (2, 5, 3),
     (2, 3, 10), (3, 5, 15), (4, 5, 8)] : List (Nat × Nat × Nat)).foldl
    (fun g e => (g.add_undirected_edge e.1 e.2.1 (some e.2.2)).2)
    (([0, 1, 2, 3, 4, 5] : List Nat).foldl (fun g n => (g.add_node n).2)
      Graph.new))

/-- C3: for a registered source, whenever `djikstra` finishes it returns
`Ok((dist, pred))` where `dist` and `pred` have the same key set, that key
set is exactly the set of nodes reachable from the source, and `pred`
maps a node to `None` only for the source; on the classic 6-node
undirected weighted graph from source 0 with `default_weight = 1` and
`zero = 0` it yields `dist = {0:0, 1:13, 2:9, 3:7, 4:18, 5:12}` and
`pred = {0:None, 1:2, 2:0, 3:0, 4:1, 5:2}`; an unweighted edge
contributes `default_weight` to distances. -/
theorem claim_C3_djikstra [Add E] (g : Graph N E) (hwf : g.WF) (src : N)
    (hsrc : g.is_node src = true) (dw z : E) :
    (∀ fuel r, g.djikstra src dw z fuel = some r →
      ∃ dist pred, r = Except.ok (dist, pred) ∧
        dist.map Prod.fst = pred.map Prod.fst ∧
        (∀ k ∈ dist.map Prod.fst, Reach g src k) ∧
        (∀ x, Reach g src x → x ∈ dist.map Prod.fst) ∧
        (∀ p ∈ pred, p.2 = none → p.1 = src)) ∧
    (∃ dist pred,
      djikstraExampleGraph.djikstra 0 1 0 60 = some (Except.ok (dist, pred)) ∧
      dist.length = 6 ∧ pred.length = 6 ∧
      hmGet 0 dist = some 0 ∧ hmGet 1 dist = some 13 ∧
      hmGet 2 dist = some 9 ∧ hmGet 3 dist = some 7 ∧
      hmGet 4 dist = some 18 ∧ hmGet 5 dist = some 12 ∧
      hmGet 0 pred = some none ∧ hmGet 1 pred = some (some 2) ∧
      hmGet 2 pred = some (some 0) ∧ hmGet 3 pred = some (some 0) ∧
      hmGet 4 pred = some (some 1) ∧ hmGet 5 pred = some (some 2)) ∧
    (∃ dist pred,
      (Graph.mk [0, 1] [(0, [(1, none)]), (1, [])] : Graph Nat Nat).djikstra
        0 5 0 10 = some (Except.ok (dist, pred)) ∧
      hmGet 1 dist = some 5) := by
  refine ⟨?_, ?_, ?_⟩
  · intro fuel r h
    have hsn : src ∈ g.nodes := (is_node_iff g src).1 hsrc
    have hbase : DjInvBase g src [(z, src)] [(src, z)] [(src, none)] := by
      refine ⟨rfl, by simp, by simp, ?_, ?_, ?_⟩
      · intro k hk
        simp only [List.map_cons, List.map_nil, List.mem_singleton] at hk
        rw [hk]
        exact ⟨hsn, Relation.ReflTransGen.refl⟩
      · intro e he
        rcases List.mem_singleton.1 he with rfl
        simp
      · intro p hp hpn
        rcases List.mem_singleton.1 hp with rfl
        rfl
    have hF : DjF g [(z, src)] [(src, z)] := by
      intro u hu
      simp only [List.map_cons, List.map_nil, List.mem_singleton] at hu
      rw [hu]
      exact Or.inl ⟨(z, src), List.mem_singleton.2 rfl, rfl, by simp [hmGet]⟩
    exact djikstraLoop_props hwf fuel _ _ _ r hbase hF h
  · refine ⟨[(0, 0), (1, 13), (2, 9), (3, 7), (5, 12), (4, 18)],
      [(0, none), (1, some 2), (2, some 0), (3, some 0), (5, some 2),
        (4, some 1)], ?_, by decide, by decide, by decide, by decide, by decide,
      by decide, by decide, by decide, by decide, by decide, by decide,
      by decide, by decide, by decide⟩
    set_option maxRecDepth 10000 in decide
  · exact ⟨[(0, 0), (1, 5)], [(0, none), (1, some 0)], by decide, by decide⟩

/-! ## Claim C5: cycle detection -/

theorem oremove_oinsert {x : N} : ∀ {l : List N}, x ∉ l →
    oremove x (oinsert nltb x l) = l := by
  intro l
  induction l with
  | nil => simp [oinsert, oremove]
  | cons y ys ih =>
    intro hx
    have hxy : x ≠ y := fun he => hx (he ▸ List.mem_cons_self _ _)
    simp only [oinsert]
    by_cases h1 : nltb x y = true
    · rw [if_pos h1]
      simp [oremove]
    · rw [if_neg h1, if_neg hxy]
      simp only [oremove]
      rw [if_neg hxy, ih (fun hm => hx (List.mem_cons_of_mem _ hm))]

theorem transGen_decomp {α : Type} {r : α → α → Prop} {a b : α}
    (h : Relation.TransGen r a b) :
    ∃ c, r a c ∧ Relation.ReflTransGen r c b :=
  Relation.TransGen.head'_iff.1 h

theorem transGen_first_step {α : Type} {r : α → α → Prop} {a b : α}
    (h : Relation.TransGen r a b) : ∃ c, r a c := by
  obtain ⟨c, hc, -⟩ := transGen_decomp h
  exact ⟨c, hc⟩

theorem adj_source_mem {g : Graph N E} (hwf : g.WF) {a b : N}
    (h : g.is_connected a b = true) : a ∈ g.nodes := by
  rw [Graph.is_connected] at h
  cases hget : emapGet a g.edges with
  | none =>
    rw [hget] at h
    cases h
  | some s =>
    exact hwf.node_of_get hget

/-- The stack set is restored whenever `explore_for_cycle` reports
"no cycle found": the joint restoration property of the mutual
recursion. -/
theorem explore_restore :
    ∀ (fuel : Nat),
    (∀ (g : Graph N E) (n : N) (visited stack v1 s1 : List N),
      exploreForCycle g fuel n visited stack = some (false, v1, s1) →
      NodesOrd stack → s1 = stack ∧ n ∉ stack) ∧
    (∀ (g : Graph N E) (l : List (N × Option E)) (visited stack v1 s1 : List N),
      exploreChildren g fuel l visited stack = some (false, v1, s1) →
      NodesOrd stack → s1 = stack) := by
  intro fuel
  induction fuel with
  | zero =>
    constructor
    · intro g n visited stack v1 s1 h _
      rw [exploreForCycle] at h
      cases h
    · intro g l visited stack v1 s1 h _
      cases l with
      | nil =>
        rw [exploreChildren, exploreChildrenF] at h
        rcases Option.some_inj.1 h with he
        exact (congrArg (fun q => q.2.2) he).symm
      | cons p rest =>
        rw [exploreChildren, exploreChildrenF, exploreForCycle] at h
        cases h
  | succ fuel ih =>
    have hchild : ∀ (g : Graph N E) (l : List (N × Option E))
        (visited stack v1 s1 : List N),
        exploreChildren g (fuel + 1) l visited stack = some (false, v1, s1) →
        NodesOrd stack →
        (∀ (g2 : Graph N E) (n : N) (visited2 stack2 v2 s2 : List N),
          exploreForCycle g2 (fuel + 1) n visited2 stack2 =
            some (false, v2, s2) →
          NodesOrd stack2 → s2 = stack2 ∧ n ∉ stack2) →
        s1 = stack := by
      intro g l
      induction l with
      | nil =>
        intro visited stack v1 s1 h _ _
        rw [exploreChildren, exploreChildrenF] at h
        rcases Option.some_inj.1 h with he
        exact (congrArg (fun q => q.2.2) he).symm
      | cons p rest ihl =>
        intro visited stack v1 s1 h hord hexp
        rw [exploreChildren, exploreChildrenF] at h
        cases hx : exploreForCycle g (fuel + 1) p.1 visited stack with
        | none =>
          rw [hx] at h
          cases h
        | some trip =>
          rcases trip with ⟨b, v2, s2⟩
          rw [hx] at h
          cases b with
          | true =>
            rcases Option.some_inj.1 h with he
            cases congrArg (fun q => q.1) he
          | false =>
            obtain ⟨hs2, -⟩ := hexp g p.1 visited stack v2 s2 hx hord
            rw [hs2] at h
            exact ihl v2 stack v1 s1 h hord hexp
    have hexp1 : ∀ (g : Graph N E) (n : N) (visited stack v1 s1 : List N),
        exploreForCycle g (fuel + 1) n visited stack = some (false, v1, s1) →
        NodesOrd stack → s1 = stack ∧ n ∉ stack := by
      intro g n visited stack v1 s1 h hord
      rw [exploreForCycle] at h
      by_cases hin : n ∈ stack
      · rw [if_pos (by simpa using hin)] at h
        rcases Option.some_inj.1 h with he
        cases congrArg (fun q => q.1) he
      · rw [if_neg (by simpa using hin)] at h
        by_cases hvis : n ∈ visited
        · rw [if_pos (by simpa using hvis)] at h
          rcases Option.some_inj.1 h with he
          exact ⟨(congrArg (fun q => q.2.2) he).symm, hin⟩
        · rw [if_neg (by simpa using hvis)] at h
          cases hget : emapGet n g.edges with
          | none =>
            rw [hget] at h
            cases h
          | some s =>
            rw [hget] at h
            dsimp only at h
            cases hc : exploreChildrenF (exploreForCycle g fuel) s
                (nsetInsert n visited) (nsetInsert n stack) with
            | none =>
              rw [hc] at h
              cases h
            | some trip =>
              rcases trip with ⟨b, v2, s2⟩
              rw [hc] at h
              cases b with
              | true =>
                rcases Option.some_inj.1 h with he
                cases congrArg (fun q => q.1) he
              | false =>
                rcases Option.some_inj.1 h with he
                have hs2 : s2 = nsetInsert n stack :=
                  ih.2 g s (nsetInsert n visited) (nsetInsert n stack) v2 s2 hc
                    (nodesOrd_nsetInsert hord n)
                have h1 : nsetRemove n s2 = s1 := congrArg (fun q => q.2.2) he
                rw [hs2] at h1
                refine ⟨?_, hin⟩
                rw [← h1]
                show oremove n (oinsert nltb n stack) = stack
                exact oremove_oinsert hin
    refine ⟨hexp1, ?_⟩
    intro g l visited stack v1 s1 h hord
    exact hchild g l visited stack v1 s1 h hord hexp1

/-- One-step adjacency: the relation tested by `is_connected`. -/
def Graph.Adj (g : Graph N E) (a b : N) : Prop := g.is_connected a b = true

/-- A directed cycle: a nonempty adjacency path from some node back to
itself (a self-loop is the one-step case). -/
def Graph.HasDirectedCycle (g : Graph N E) : Prop :=
  ∃ x, Relation.TransGen g.Adj x x

/-- Soundness of `explore_for_cycle`: a `true` result really exhibits a
directed cycle, given the invariant that every node currently on the
recursion stack has a nonempty adjacency path to the node being
explored. -/
theorem explore_sound :
    ∀ (fuel : Nat),
    (∀ (g : Graph N E) (n : N) (visited stack v1 s1 : List N),
      exploreForCycle g fuel n visited stack = some (true, v1, s1) →
      NodesOrd stack → (∀ y ∈ stack, Relation.TransGen g.Adj y n) →
      g.HasDirectedCycle) ∧
    (∀ (g : Graph N E) (l : List (N × Option E)) (visited stack v1 s1 : List N),
      exploreChildren g fuel l visited stack = some (true, v1, s1) →
      NodesOrd stack →
      (∀ p ∈ l, ∀ y ∈ stack, Relation.TransGen g.Adj y p.1) →
      g.HasDirectedCycle) := by
  intro fuel
  induction fuel with
  | zero =>
    constructor
    · intro g n visited stack v1 s1 h _ _
      rw [exploreForCycle] at h
      cases h
    · intro g l visited stack v1 s1 h _ _
      cases l with
      | nil =>
        rw [exploreChildren, exploreChildrenF] at h
        rcases Option.some_inj.1 h with he
        cases congrArg (fun q => q.1) he
      | cons p rest =>
        rw [exploreChildren, exploreChildrenF, exploreForCycle] at h
        cases h
  | succ fuel ih =>
    have hexp1 : ∀ (g : Graph N E) (n : N) (visited stack v1 s1 : List N),
        exploreForCycle g (fuel + 1) n visited stack = some (true, v1, s1) →
        NodesOrd stack → (∀ y ∈ stack, Relation.TransGen g.Adj y n) →
        g.HasDirectedCycle := by
      intro g n visited stack v1 s1 h hord hinv
      by_cases hin : n ∈ stack
      · exact ⟨n, hinv n hin⟩
      · rw [exploreForCycle] at h
        rw [if_neg (by simpa using hin)] at h
        by_cases hvis : n ∈ visited
        · rw [if_pos (by simpa using hvis)] at h
          rcases Option.some_inj.1 h with he
          cases congrArg (fun q => q.1) he
        · rw [if_neg (by simpa using hvis)] at h
          cases hget : emapGet n g.edges with
          | none =>
            rw [hget] at h
            cases h
          | some s =>
            rw [hget] at h
            dsimp only at h
            cases hc : exploreChildrenF (exploreForCycle g fuel) s
                (nsetInsert n visited) (nsetInsert n stack) with
            | none =>
              rw [hc] at h
              cases h
            | some trip =>
              rcases trip with ⟨b, v2, s2⟩
              rw [hc] at h
              cases b with
              | false =>
                rcases Option.some_inj.1 h with he
                cases congrArg (fun q => q.1) he
              | true =>
                refine ih.2 g s (nsetInsert n visited) (nsetInsert n stack)
                  v2 s2 hc (nodesOrd_nsetInsert hord n) ?_
                intro p hp y hy
                have hadj : g.Adj n p.1 := is_connected_of_mem hget hp
                rcases (mem_oinsert nltb n y stack).1 hy with rfl | hy2
                · exact Relation.TransGen.single hadj
                · exact (hinv y hy2).tail hadj
    refine ⟨hexp1, ?_⟩
    intro g l
    induction l with
    | nil =>
      intro visited stack v1 s1 h _ _
      rw [exploreChildren, exploreChildrenF] at h
      rcases Option.some_inj.1 h with he
      cases congrArg (fun q => q.1) he
    | cons p rest ihl =>
      intro visited stack v1 s1 h hord hinv
      rw [exploreChildren, exploreChildrenF] at h
      cases hx : exploreForCycle g (fuel + 1) p.1 visited stack with
      | none =>
        rw [hx] at h
        cases h
      | some trip =>
        rcases trip with ⟨b, v2, s2⟩
        rw [hx] at h
        cases b with
        | true =>
          exact hexp1 g p.1 visited stack v2 s2 hx hord
            (hinv p (List.mem_cons_self p rest))
        | false =>
          obtain ⟨hs2, -⟩ := (explore_restore (fuel + 1)).1 g p.1 visited
            stack v2 s2 hx hord
          rw [hs2] at h
          exact ihl v2 stack v1 s1 h hord
            (fun q hq => hinv q (List.mem_cons_of_mem p hq))

/-- A node is finished (in DFS colouring terms, black): visited and no
longer on the recursion stack. -/
def Done (V S : List N) (x : N) : Prop := x ∈ V ∧ x ∉ S

/-- The invariant of a cycle-free run: finished nodes only point at
finished nodes, and no finished node lies on a directed cycle. -/
def Good (g : Graph N E) (V S : List N) : Prop :=
  (∀ x y, Done V S x → g.Adj x y → Done V S y) ∧
  (∀ x, Done V S x → ¬ Relation.TransGen g.Adj x x)

theorem done_insert_iff {V S : List N} {n x : N} (hnV : n ∉ V) :
    Done (nsetInsert n V) (nsetInsert n S) x ↔ Done V S x := by
  constructor
  · rintro ⟨hx, hs⟩
    have hxn : x ≠ n := fun he => hs ((mem_oinsert nltb n x S).2 (Or.inl he))
    rcases (mem_oinsert nltb n x V).1 hx with he | hx2
    · exact absurd he hxn
    · exact ⟨hx2, fun hxs => hs ((mem_oinsert nltb n x S).2 (Or.inr hxs))⟩
  · rintro ⟨hx, hs⟩
    have hxn : x ≠ n := fun he => hnV (he ▸ hx)
    refine ⟨(mem_oinsert nltb n x V).2 (Or.inr hx), fun hm => ?_⟩
    rcases (mem_oinsert nltb n x S).1 hm with he | hs2
    · exact hxn he
    · exact hs hs2

/-- Pushing an unvisited node onto both `visited` and `stack` leaves the
set of finished nodes unchanged, so the invariant survives. -/
theorem good_push {g : Graph N E} {V S : List N} {n : N} (hnV : n ∉ V)
    (hg : Good g V S) : Good g (nsetInsert n V) (nsetInsert n S) := by
  constructor
  · intro x y hx hadj
    exact (done_insert_iff hnV).2 (hg.1 x y ((done_insert_iff hnV).1 hx) hadj)
  · intro x hx
    exact hg.2 x ((done_insert_iff hnV).1 hx)

theorem done_reflTransGen {g : Graph N E} {V S : List N}
    (hcl : ∀ x y, Done V S x → g.Adj x y → Done V S y) {a b : N}
    (hab : Relation.ReflTransGen g.Adj a b) (ha : Done V S a) : Done V S b := by
  induction hab with
  | refl => exact ha
  | tail h1 h2 ih => exact hcl _ _ ih h2

/-- Popping the current node off the stack preserves the invariant,
provided every successor of the node ended up finished.  The freshly
finished node cannot lie on a cycle: any adjacency path leaving it stays
among previously finished nodes, and none of those points back at a node
that was still on the stack. -/
theorem good_pop {g : Graph N E} {V S : List N} {n : N}
    {l : List (N × Option E)} (hget : emapGet n g.edges = some l)
    (hnS : n ∉ S) (hnV : n ∈ V)
    (hl : ∀ p ∈ l, p.1 ∈ V ∧ p.1 ∉ nsetInsert n S)
    (hg : Good g V (nsetInsert n S)) : Good g V S := by
  have hcl : ∀ x y, Done V S x → g.Adj x y → Done V S y := by
    intro x y hx hadj
    by_cases hxn : x = n
    · rw [hxn] at hadj
      obtain ⟨p, hp, hpd⟩ := is_connected_elim hget hadj
      obtain ⟨h1, h2⟩ := hl p hp
      rw [hpd] at h1 h2
      exact ⟨h1, fun hyS => h2 ((mem_oinsert nltb n y S).2 (Or.inr hyS))⟩
    · have hx1 : Done V (nsetInsert n S) x := by
        refine ⟨hx.1, fun hm => ?_⟩
        rcases (mem_oinsert nltb n x S).1 hm with he | hs
        · exact hxn he
        · exact hx.2 hs
      have hy1 := hg.1 x y hx1 hadj
      exact ⟨hy1.1, fun hyS => hy1.2 ((mem_oinsert nltb n y S).2 (Or.inr hyS))⟩
  refine ⟨hcl, ?_⟩
  intro x hx hcyc
  by_cases hxn : x = n
  · rw [hxn] at hcyc
    obtain ⟨c, hnc, hcn⟩ := transGen_decomp hcyc
    obtain ⟨p, hp, hpd⟩ := is_connected_elim hget hnc
    obtain ⟨h1, h2⟩ := hl p hp
    rw [hpd] at h1 h2
    have hc1 : Done V (nsetInsert n S) c := ⟨h1, h2⟩
    rcases Relation.reflTransGen_iff_eq_or_transGen.1 hcn with he | htg
    · rw [← he] at hc1
      exact hc1.2 ((mem_oinsert nltb n n S).2 (Or.inl rfl))
    · obtain ⟨d, hcd, hdn⟩ := Relation.TransGen.tail'_iff.1 htg
      have hd1 : Done V (nsetInsert n S) d := done_reflTransGen hg.1 hcd hc1
      have hn1 := hg.1 d n hd1 hdn
      exact hn1.2 ((mem_oinsert nltb n n S).2 (Or.inl rfl))
  · have hx1 : Done V (nsetInsert n S) x := by
      refine ⟨hx.1, fun hm => ?_⟩
      rcases (mem_oinsert nltb n x S).1 hm with he | hs
      · exact hxn he
      · exact hx.2 hs
    exact hg.2 x hx1 hcyc

/-- Completeness invariant of `explore_for_cycle`: a `false` run restores
the stack, extends `visited` to cover the explored node, and keeps the
finished region cycle-free. -/
theorem explore_complete :
    ∀ (fuel : Nat),
    (∀ (g : Graph N E) (n : N) (visited stack v1 s1 : List N),
      exploreForCycle g fuel n visited stack = some (false, v1, s1) →
      NodesOrd stack → Good g visited stack →
      s1 = stack ∧ (∀ z ∈ visited, z ∈ v1) ∧ n ∈ v1 ∧ n ∉ stack ∧
        Good g v1 stack) ∧
    (∀ (g : Graph N E) (l : List (N × Option E)) (visited stack v1 s1 : List N),
      exploreChildren g fuel l visited stack = some (false, v1, s1) →
      NodesOrd stack → Good g visited stack →
      s1 = stack ∧ (∀ z ∈ visited, z ∈ v1) ∧
        (∀ p ∈ l, p.1 ∈ v1 ∧ p.1 ∉ stack) ∧ Good g v1 stack) := by
  intro fuel
  induction fuel with
  | zero =>
    constructor
    · intro g n visited stack v1 s1 h _ _
      rw [exploreForCycle] at h
      cases h
    · intro g l visited stack v1 s1 h _ hgood
      cases l with
      | nil =>
        rw [exploreChildren, exploreChildrenF] at h
        rcases Option.some_inj.1 h with he
        have hv : visited = v1 := congrArg (fun q => q.2.1) he
        have hs : stack = s1 := congrArg (fun q => q.2.2) he
        subst hv
        subst hs
        exact ⟨rfl, fun z hz => hz, by simp, hgood⟩
      | cons p rest =>
        rw [exploreChildren, exploreChildrenF, exploreForCycle] at h
        cases h
  | succ fuel ih =>
    have hexp1 : ∀ (g : Graph N E) (n : N) (visited stack v1 s1 : List N),
        exploreForCycle g (fuel + 1) n visited stack = some (false, v1, s1) →
        NodesOrd stack → Good g visited stack →
        s1 = stack ∧ (∀ z ∈ visited, z ∈ v1) ∧ n ∈ v1 ∧ n ∉ stack ∧
          Good g v1 stack := by
      intro g n visited stack v1 s1 h hord hgood
      rw [exploreForCycle] at h
      by_cases hin : n ∈ stack
      · rw [if_pos (by simpa using hin)] at h
        rcases Option.some_inj.1 h with he
        cases congrArg (fun q => q.1) he
      · rw [if_neg (by simpa using hin)] at h
        by_cases hvis : n ∈ visited
        · rw [if_pos (by simpa using hvis)] at h
          rcases Option.some_inj.1 h with he
          have hv : visited = v1 := congrArg (fun q => q.2.1) he
          have hs : stack = s1 := congrArg (fun q => q.2.2) he
          subst hv
          subst hs
          exact ⟨rfl, fun z hz => hz, hvis, hin, hgood⟩
        · rw [if_neg (by simpa using hvis)] at h
          cases hget : emapGet n g.edges with
          | none =>
            rw [hget] at h
            cases h
          | some s =>
            rw [hget] at h
            dsimp only at h
            cases hc : exploreChildrenF (exploreForCycle g fuel) s
                (nsetInsert n visited) (nsetInsert n stack) with
            | none =>
              rw [hc] at h
              cases h
            | some trip =>
              rcases trip with ⟨b, v2, s2⟩
              rw [hc] at h
              cases b with
              | true =>
                rcases Option.some_inj.1 h with he
                cases congrArg (fun q => q.1) he
              | false =>
                rcases Option.some_inj.1 h with he
                have hv : v2 = v1 := congrArg (fun q => q.2.1) he
                have hs : nsetRemove n s2 = s1 := congrArg (fun q => q.2.2) he
                obtain ⟨hs2, hsub, hl, hgood2⟩ := ih.2 g s (nsetInsert n visited)
                  (nsetInsert n stack) v2 s2 hc (nodesOrd_nsetInsert hord n)
                  (good_push hvis hgood)
                have hs1 : s1 = stack := by
                  rw [← hs, hs2]
                  show oremove n (oinsert nltb n stack) = stack
                  exact oremove_oinsert hin
                have hnv2 : n ∈ v2 :=
                  hsub n ((mem_oinsert nltb n n visited).2 (Or.inl rfl))
                refine ⟨hs1, ?_, hv ▸ hnv2, hin, ?_⟩
                · intro z hz
                  exact hv ▸ hsub z ((mem_oinsert nltb n z visited).2 (Or.inr hz))
                · exact hv ▸ good_pop hget hin hnv2 hl hgood2
    refine ⟨hexp1, ?_⟩
    intro g l
    induction l with
    | nil =>
      intro visited stack v1 s1 h _ hgood
      rw [exploreChildren, exploreChildrenF] at h
      rcases Option.some_inj.1 h with he
      have hv : visited = v1 := congrArg (fun q => q.2.1) he
      have hs : stack = s1 := congrArg (fun q => q.2.2) he
      subst hv
      subst hs
      exact ⟨rfl, fun z hz => hz, by simp, hgood⟩
    | cons p rest ihl =>
      intro visited stack v1 s1 h hord hgood
      rw [exploreChildren, exploreChildrenF] at h
      cases hx : exploreForCycle g (fuel + 1) p.1 visited stack with
      | none =>
        rw [hx] at h
        cases h
      | some trip =>
        rcases trip with ⟨b, v2, s2⟩
        rw [hx] at h
        cases b with
        | true =>
          rcases Option.some_inj.1 h with he
          cases congrArg (fun q => q.1) he
        | false =>
          obtain ⟨hs2, hsub, hp1, hpns, hgood2⟩ :=
            hexp1 g p.1 visited stack v2 s2 hx hord hgood
          rw [hs2] at h
          obtain ⟨hs1, hsub2, hl2, hgood3⟩ := ihl v2 stack v1 s1 h hord hgood2
          refine ⟨hs1, fun z hz => hsub2 z (hsub z hz), ?_, hgood3⟩
          intro q hq
          rcases List.mem_cons.1 hq with he2 | hq2
          · rw [he2]
            exact ⟨hsub2 p.1 hp1, hpns⟩
          · exact hl2 q hq2

theorem good_nil (g : Graph N E) : Good g [] [] := by
  constructor
  · intro x y hx _
    cases hx.1
  · intro x hx _
    cases hx.1

/-- A `false` answer of the scan loop of `has_cycle` yields a final
visited set, still cycle-free, that covers everything scanned. -/
theorem hasCycleLoop_false :
    ∀ (todo : List N) (g : Graph N E) (fuel : Nat) (visited : List N),
    hasCycleLoop g fuel todo visited [] = some false →
    Good g visited [] →
    ∃ vf, Good g vf [] ∧ (∀ z ∈ visited, z ∈ vf) ∧ ∀ n ∈ todo, n ∈ vf := by
  intro todo
  induction todo with
  | nil =>
    intro g fuel visited h hg
    exact ⟨visited, hg, fun z hz => hz, by simp⟩
  | cons n rest ih =>
    intro g fuel visited h hg
    rw [hasCycleLoop] at h
    by_cases hvis : n ∈ visited
    · rw [if_pos (by simpa using hvis)] at h
      obtain ⟨vf, hgf, hsub, hrest⟩ := ih g fuel visited h hg
      refine ⟨vf, hgf, hsub, ?_⟩
      intro m hm
      rcases List.mem_cons.1 hm with he | hm2
      · rw [he]
        exact hsub n hvis
      · exact hrest m hm2
    · rw [if_neg (by simpa using hvis)] at h
      cases hx : exploreForCycle g fuel n visited [] with
      | none =>
        rw [hx] at h
        cases h
      | some trip =>
        rcases trip with ⟨b, v1, s1⟩
        rw [hx] at h
        cases b with
        | true => simp at h
        | false =>
          obtain ⟨hs1, hsub1, hn1, -, hg1⟩ := (explore_complete fuel).1 g n
            visited [] v1 s1 hx List.Pairwise.nil hg
          rw [hs1] at h
          obtain ⟨vf, hgf, hsub2, hrest⟩ := ih g fuel v1 h hg1
          refine ⟨vf, hgf, fun z hz => hsub2 z (hsub1 z hz), ?_⟩
          intro m hm
          rcases List.mem_cons.1 hm with he | hm2
          · rw [he]
            exact hsub2 n hn1
          · exact hrest m hm2

/-- A `true` answer of the scan loop really comes with a directed cycle. -/
theorem hasCycleLoop_true :
    ∀ (todo : List N) (g : Graph N E) (fuel : Nat) (visited : List N),
    hasCycleLoop g fuel todo visited [] = some true →
    g.HasDirectedCycle := by
  intro todo
  induction todo with
  | nil =>
    intro g fuel visited h
    rw [hasCycleLoop] at h
    simp at h
  | cons n rest ih =>
    intro g fuel visited h
    rw [hasCycleLoop] at h
    by_cases hvis : n ∈ visited
    · rw [if_pos (by simpa using hvis)] at h
      exact ih g fuel visited h
    · rw [if_neg (by simpa using hvis)] at h
      cases hx : exploreForCycle g fuel n visited [] with
      | none =>
        rw [hx] at h
        cases h
      | some trip =>
        rcases trip with ⟨b, v1, s1⟩
        rw [hx] at h
        cases b with
        | true =>
          exact (explore_sound fuel).1 g n visited [] v1 s1 hx
            List.Pairwise.nil (by simp)
        | false =>
          obtain ⟨hs1, -⟩ := (explore_restore fuel).1 g n visited [] v1 s1 hx
            List.Pairwise.nil
          rw [hs1] at h
          exact ih g fuel v1 h

/-- Whenever `has_cycle` returns within its fuel, the answer is `true`
exactly when the graph has a directed cycle. -/
theorem has_cycle_iff {g : Graph N E} (hwf : g.WF) {fuel : Nat} {b : Bool}
    (h : g.has_cycle fuel = some b) :
    b = true ↔ g.HasDirectedCycle := by
  rw [Graph.has_cycle] at h
  constructor
  · intro hb
    rw [hb] at h
    exact hasCycleLoop_true g.nodes g fuel [] h
  · intro hcyc
    cases b with
    | true => rfl
    | false =>
      exfalso
      obtain ⟨vf, hgf, -, hall⟩ := hasCycleLoop_false g.nodes g fuel [] h
        (good_nil g)
      obtain ⟨x, hx⟩ := hcyc
      obtain ⟨c, hadj⟩ := transGen_first_step hx
      have hxn : x ∈ g.nodes := adj_source_mem hwf hadj
      exact hgf.2 x ⟨hall x hxn, List.not_mem_nil x⟩ hx

theorem length_filter_mono {α : Type} {p q : α → Bool}
    (h : ∀ x, q x = true → p x = true) :
    ∀ l : List α, (l.filter q).length ≤ (l.filter p).length := by
  intro l
  induction l with
  | nil => simp
  | cons y ys ih =>
    simp only [List.filter_cons]
    by_cases hq : q y = true
    · rw [if_pos hq, if_pos (h y hq)]
      simpa using ih
    · rw [if_neg hq]
      by_cases hp : p y = true
      · rw [if_pos hp]
        simp only [List.length_cons]
        omega
      · rw [if_neg hp]
        exact ih

theorem unvisited_mono {g : Graph N E} {V v1 : List N}
    (h : ∀ z ∈ V, z ∈ v1) : unvisited g v1 ≤ unvisited g V := by
  apply length_filter_mono
  intro x hx
  simp only [decide_eq_true_eq] at hx ⊢
  intro hxV
  exact hx (h x hxV)

theorem unvisited_insert {g : Graph N E} (hwf : g.WF) {n : N} {V : List N}
    (hn : n ∈ g.nodes) (hnv : n ∉ V) :
    unvisited g V = unvisited g (nsetInsert n V) + 1 := by
  apply length_filter_update hwf.1.nodup hn
  · simp [hnv]
  · have hmem : n ∈ nsetInsert n V := (mem_oinsert nltb n n V).2 (Or.inl rfl)
    simp [hmem]
  · intro y hy
    apply decide_eq_decide.2
    constructor
    · intro h hm
      rcases (mem_oinsert nltb n y V).1 hm with he | h2
      · exact hy he
      · exact h h2
    · intro h hyV
      exact h ((mem_oinsert nltb n y V).2 (Or.inr hyV))

/-- Fuel sufficiency for `explore_for_cycle` on a well-formed graph: one
more unit of fuel than there are unvisited registered nodes always
suffices, and `visited` only ever grows. -/
theorem explore_fuel {g : Graph N E} (hwf : g.WF) :
    ∀ (fuel : Nat),
    (∀ (n : N) (visited stack : List N), n ∈ g.nodes →
      unvisited g visited + 1 ≤ fuel →
      ∃ r, exploreForCycle g fuel n visited stack = some r ∧
        ∀ z ∈ visited, z ∈ r.2.1) ∧
    (∀ (l : List (N × Option E)) (visited stack : List N),
      (∀ p ∈ l, p.1 ∈ g.nodes) →
      unvisited g visited + 1 ≤ fuel →
      ∃ r, exploreChildren g fuel l visited stack = some r ∧
        ∀ z ∈ visited, z ∈ r.2.1) := by
  intro fuel
  induction fuel with
  | zero =>
    constructor
    · intro n visited stack _ hf
      omega
    · intro l visited stack _ hf
      omega
  | succ fuel ih =>
    have hexp1 : ∀ (n : N) (visited stack : List N), n ∈ g.nodes →
        unvisited g visited + 1 ≤ fuel + 1 →
        ∃ r, exploreForCycle g (fuel + 1) n visited stack = some r ∧
          ∀ z ∈ visited, z ∈ r.2.1 := by
      intro n visited stack hn hfuel
      rw [exploreForCycle]
      by_cases hin : n ∈ stack
      · rw [if_pos (by simpa using hin)]
        exact ⟨(true, visited, stack), rfl, fun z hz => hz⟩
      · rw [if_neg (by simpa using hin)]
        by_cases hvis : n ∈ visited
        · rw [if_pos (by simpa using hvis)]
          exact ⟨(false, visited, stack), rfl, fun z hz => hz⟩
        · rw [if_neg (by simpa using hvis)]
          obtain ⟨s, hget⟩ := Option.isSome_iff_exists.1 (hwf.get_isSome hn)
          rw [hget]
          dsimp only
          have hdec : unvisited g (nsetInsert n visited) + 1 ≤ fuel := by
            have := unvisited_insert hwf hn hvis
            omega
          obtain ⟨r, hr, hsub⟩ := ih.2 s (nsetInsert n visited)
            (nsetInsert n stack) (hwf.dst_of_get hget) hdec
          rcases r with ⟨b, v2, s2⟩
          have hrF : exploreChildrenF (exploreForCycle g fuel) s
              (nsetInsert n visited) (nsetInsert n stack) = some (b, v2, s2) := hr
          rw [hrF]
          have hsub2 : ∀ z ∈ visited, z ∈ v2 := fun z hz =>
            hsub z ((mem_oinsert nltb n z visited).2 (Or.inr hz))
          cases b with
          | true => exact ⟨(true, v2, s2), rfl, hsub2⟩
          | false => exact ⟨(false, v2, nsetRemove n s2), rfl, hsub2⟩
    have hchild : ∀ (l : List (N × Option E)) (visited stack : List N),
        (∀ p ∈ l, p.1 ∈ g.nodes) →
        unvisited g visited + 1 ≤ fuel + 1 →
        ∃ r, exploreChildren g (fuel + 1) l visited stack = some r ∧
          ∀ z ∈ visited, z ∈ r.2.1 := by
      intro l
      induction l with
      | nil =>
        intro visited stack _ _
        rw [exploreChildren, exploreChildrenF]
        exact ⟨(false, visited, stack), rfl, fun z hz => hz⟩
      | cons p rest ihl =>
        intro visited stack hmem hfuel
        rw [exploreChildren, exploreChildrenF]
        obtain ⟨r, hr, hsub⟩ := hexp1 p.1 visited stack
          (hmem p (List.mem_cons_self p rest)) hfuel
        rcases r with ⟨b, v2, s2⟩
        dsimp only at hsub
        rw [hr]
        cases b with
        | true => exact ⟨(true, v2, s2), rfl, hsub⟩
        | false =>
          have hf2 : unvisited g v2 + 1 ≤ fuel + 1 := by
            have := unvisited_mono (g := g) hsub
            omega
          obtain ⟨r2, hr2, hsub2⟩ := ihl v2 s2
            (fun q hq => hmem q (List.mem_cons_of_mem p hq)) hf2
          exact ⟨r2, hr2, fun z hz => hsub2 z (hsub z hz)⟩
    exact ⟨hexp1, hchild⟩

theorem hasCycleLoop_fuel {g : Graph N E} (hwf : g.WF) :
    ∀ (todo : List N) (fuel : Nat) (visited : List N),
    (∀ n ∈ todo, n ∈ g.nodes) →
    unvisited g visited + 1 ≤ fuel →
    ∃ b, hasCycleLoop g fuel todo visited [] = some b := by
  intro todo
  induction todo with
  | nil =>
    intro fuel visited _ _
    rw [hasCycleLoop]
    exact ⟨false, rfl⟩
  | cons n rest ih =>
    intro fuel visited hmem hfuel
    rw [hasCycleLoop]
    by_cases hvis : n ∈ visited
    · rw [if_pos (by simpa using hvis)]
      exact ih fuel visited (fun m hm => hmem m (List.mem_cons_of_mem n hm)) hfuel
    · rw [if_neg (by simpa using hvis)]
      obtain ⟨r, hr, hsub⟩ := (explore_fuel hwf fuel).1 n visited []
        (hmem n (List.mem_cons_self n rest)) hfuel
      rcases r with ⟨b, v1, s1⟩
      dsimp only at hsub
      rw [hr]
      cases b with
      | true => exact ⟨true, rfl⟩
      | false =>
        obtain ⟨hs1, -⟩ := (explore_restore fuel).1 g n visited [] v1 s1 hr
          List.Pairwise.nil
        rw [hs1]
        exact ih fuel v1 (fun m hm => hmem m (List.mem_cons_of_mem n hm))
          (by have := unvisited_mono (g := g) hsub; omega)

/-- On a well-formed graph `has_cycle` always returns an answer when run
with fuel `num_nodes + 1`. -/
theorem has_cycle_total {g : Graph N E} (hwf : g.WF) :
    ∃ b, g.has_cycle (g.num_nodes + 1) = some b := by
  apply hasCycleLoop_fuel hwf g.nodes (g.num_nodes + 1) [] (fun n hn => hn)
  have h1 : unvisited g [] ≤ g.num_nodes := by
    rw [unvisited]
    exact List.length_filter_le _ _
  omega

/-- The DAG with edges 0→1, 0→2, 1→2. -/
def dagExample : Graph Nat Nat :=
  Graph.mk [0, 1, 2] [(0, [(1, none), (2, none)]), (1, [(2, none)]), (2, [])]

/-- Two disjoint acyclic components: 0→1 and 2→3. -/
def twoCompExample : Graph Nat Nat :=
  Graph.mk [0, 1, 2, 3] [(0, [(1, none)]), (1, []), (2, [(3, none)]), (3, [])]

/-- A single node carrying a self-loop. -/
def selfLoopExample : Graph Nat Nat :=
  Graph.mk [0] [(0, [(0, none)])]

/-- C5: on a well-formed graph, `has_cycle` returns true exactly when the
graph contains a directed cycle (in any component, self-loops included):
whenever the fueled loop returns an answer the answer agrees with the
existence of a directed cycle, and fuel `num_nodes + 1` always produces an
answer.  Concretely it is false for the DAG {0→1, 0→2, 1→2} and becomes
true after adding the edge 2→0; it is false for two disjoint acyclic
components 0→1, 2→3 and becomes true once the back-edge 3→2 closes one of
them; a self-loop alone already counts as a cycle. -/
theorem claim_C5_has_cycle :
    (∀ (g : Graph N E) (fuel : Nat) (b : Bool), g.WF →
      g.has_cycle fuel = some b → (b = true ↔ g.HasDirectedCycle)) ∧
    (∀ (g : Graph N E), g.WF → ∃ b, g.has_cycle (g.num_nodes + 1) = some b) ∧
    dagExample.has_cycle 4 = some false ∧
    (dagExample.add_edge 2 0 none).2.has_cycle 4 = some true ∧
    twoCompExample.has_cycle 5 = some false ∧
    (twoCompExample.add_edge 3 2 none).2.has_cycle 5 = some true ∧
    selfLoopExample.has_cycle 2 = some true := by
  refine ⟨?_, ?_, by decide, by decide, by decide, by decide, by decide⟩
  · intro g fuel b hwf h
    exact has_cycle_iff hwf h
  · intro g hwf
    exact has_cycle_total hwf

theorem claim_C5_has_cycle_witness :
    Graph.HasDirectedCycle (dagExample.add_edge 2 0 none).2 :=
  ((@claim_C5_has_cycle Nat Nat inferInstance inferInstance).1
    (dagExample.add_edge 2 0 none).2 4 true (by decide) (by decide)).1 rfl

set_option maxRecDepth 10000 in
theorem claim_C3_djikstra_witness :
    djikstraExampleGraph.WF ∧
    (∃ dist pred,
      djikstraExampleGraph.djikstra 0 1 0 60 = some (Except.ok (dist, pred)) ∧
      dist.length = 6 ∧ pred.length = 6 ∧
      hmGet 0 dist = some 0 ∧ hmGet 1 dist = some 13 ∧
      hmGet 2 dist = some 9 ∧ hmGet 3 dist = some 7 ∧
      hmGet 4 dist = some 18 ∧ hmGet 5 dist = some 12 ∧
      hmGet 0 pred = some none ∧ hmGet 1 pred = some (some 2) ∧
      hmGet 2 pred = some (some 0) ∧ hmGet 3 pred = some (some 0) ∧
      hmGet 4 pred = some (some 1) ∧ hmGet 5 pred = some (some 2)) :=
  ⟨by decide,
    (claim_C3_djikstra djikstraExampleGraph (by decide) 0 (by decide) 1 0).2.1⟩

end FG
